import Mathlib

/-!
# DistanceUtils (litiv): distance and similarity primitives

A shallow embedding of `DistanceUtils.h`.

* `size_t` is the 64-bit unsigned type (`cdist` statically asserts `sizeof(size_t) >= 8`):
  every `size_t` operation is taken modulo `2 ^ 64`.
* A pointer argument `const T* a` is the function giving the value read at each offset,
  and `a + n` is `offset a n`.
* An optional mask `const uchar* m = NULL` is an `Option`.
* The overloads of one C++ name get distinct Lean names: `L1dist` (two scalars),
  `L1distVec` (`L1dist<nChannels>(a,b)`), `L1distElems` (`L1dist<nChannels>(a,b,nElements,m)`),
  `L1distDyn` (`L1dist(a,b,nElements,nChannels,m)`), and likewise for the other metrics.
-/

namespace DistanceUtils

/-- Modulus of `size_t`. -/
def SIZE_MOD : Nat := 2 ^ 64

/-- Conversion of an integer value to `int` (32-bit twos-complement). -/
def castInt (z : Int) : Int := (z + 2 ^ 31) % 2 ^ 32 - 2 ^ 31

/-- Pointer arithmetic `a + n`. -/
def offset {α : Type} (a : Nat → α) (n : Nat) : Nat → α := fun c => a (n + c)

/-- How a call ends: it returns a value, `CV_Assert` throws, an integer division by zero is
executed, or the iteration budget of the model of a `for` loop is exhausted. -/
inductive Outcome (α : Type) where
  | ret (v : α)
  | assertFailed
  | divByZero
  | outOfFuel
  deriving DecidableEq, Repr

/-- Continue with the returned value, or propagate the abnormal end. -/
def Outcome.andThen {α β : Type} (o : Outcome α) (k : α → Outcome β) : Outcome β :=
  match o with
  | Outcome.ret v => k v
  | Outcome.assertFailed => Outcome.assertFailed
  | Outcome.divByZero => Outcome.divByZero
  | Outcome.outOfFuel => Outcome.outOfFuel

/-- The returned value, or `dflt` when the call does not return. -/
def Outcome.getD {α : Type} (o : Outcome α) (dflt : α) : α :=
  match o with
  | Outcome.ret v => v
  | _ => dflt

/-- The loop
`for(size_t n=0,i=0; n<nTotElements; n+=nChannels,++i) if(m[i]) oResult += dist(a+n,b+n);`
with `dist n` the per-element distance at offset `n`; the first argument is the iteration budget. -/
def maskedLoop (dist : Nat → Outcome Nat) (m : Nat → Nat) (nChannels nTotElements : Nat) :
    Nat → Nat → Nat → Nat → Outcome Nat
  | 0, _, _, _ => Outcome.outOfFuel
  | fuel + 1, n, i, oResult =>
    if n < nTotElements then
      if m i ≠ 0 then
        (dist n).andThen fun d =>
          maskedLoop dist m nChannels nTotElements fuel ((n + nChannels) % SIZE_MOD)
            ((i + 1) % SIZE_MOD) ((oResult + d) % SIZE_MOD)
      else
        maskedLoop dist m nChannels nTotElements fuel ((n + nChannels) % SIZE_MOD)
          ((i + 1) % SIZE_MOD) oResult
    else Outcome.ret oResult

/-- The loop `for(size_t n=0; n<nTotElements; n+=nChannels) oResult += dist(a+n,b+n);`. -/
def plainLoop (dist : Nat → Outcome Nat) (nChannels nTotElements : Nat) :
    Nat → Nat → Nat → Outcome Nat
  | 0, _, _ => Outcome.outOfFuel
  | fuel + 1, n, oResult =>
    if n < nTotElements then
      (dist n).andThen fun d =>
        plainLoop dist nChannels nTotElements fuel ((n + nChannels) % SIZE_MOD)
          ((oResult + d) % SIZE_MOD)
    else Outcome.ret oResult

/-- The body shared by the multi-element overloads `X<nChannels>(a,b,nElements,m)`:
`nTotElements = nElements*nChannels`, then the masked loop if `m` is non-null and the plain loop
otherwise. Each iteration advances `n`, so `nTotElements + 1` iterations are enough unless the
index arithmetic wraps around. -/
def elemsBody (dist : Nat → Outcome Nat) (nChannels nElements : Nat) (m : Option (Nat → Nat)) :
    Outcome Nat :=
  let nTotElements := (nElements * nChannels) % SIZE_MOD
  match m with
  | some mk => maskedLoop dist mk nChannels nTotElements (nTotElements + 1) 0 0 0
  | none => plainLoop dist nChannels nTotElements (nTotElements + 1) 0 0

/-! ## L1 distance (`T = uchar`) -/

/-- Scalar `L1dist(T a, T b)` at `T = uchar`: `(size_t)abs((int)a-b)`; `b` is promoted to `int`. -/
def L1dist (a b : Nat) : Nat :=
  Int.natAbs (castInt (a : Int) - (b : Int)) % SIZE_MOD

/-- Fixed-channel `L1dist<nChannels>(const T* a, const T* b)`: the loop over the channels. -/
def L1distVec (nChannels : Nat) (a b : Nat → Nat) : Nat :=
  (List.range nChannels).foldl (fun oResult c => (oResult + L1dist (a c) (b c)) % SIZE_MOD) 0

/-- Multi-element `L1dist<nChannels>(a, b, nElements, m)`. -/
def L1distElems (nChannels : Nat) (a b : Nat → Nat) (nElements : Nat)
    (m : Option (Nat → Nat)) : Outcome Nat :=
  elemsBody (fun n => Outcome.ret (L1distVec nChannels (offset a n) (offset b n)))
    nChannels nElements m

/-- Runtime-dispatched `L1dist(a, b, nElements, nChannels, m)`: `CV_Assert`, then the
dispatch on the channel count. -/
def L1distDyn (a b : Nat → Nat) (nElements nChannels : Nat) (m : Option (Nat → Nat)) :
    Outcome Nat :=
  if ¬ (nChannels > 0 ∧ nChannels ≤ 4) then Outcome.assertFailed
  else
    match nChannels with
    | 1 => L1distElems 1 a b nElements m
    | 2 => L1distElems 2 a b nElements m
    | 3 => L1distElems 3 a b nElements m
    | 4 => L1distElems 4 a b nElements m
    | _ => Outcome.ret 0

/-! ## Squared L2 distance and L2 distance (`T = uchar`) -/

/-- Scalar `L2sqrdist(T a, T b)`: the square of `L1dist(a,b)`, in `size_t`. -/
def L2sqrdist (a b : Nat) : Nat :=
  let oResult := L1dist a b
  (oResult * oResult) % SIZE_MOD

/-- Fixed-channel `L2sqrdist<nChannels>(const T* a, const T* b)`: the loop over the channels. -/
def L2sqrdistVec (nChannels : Nat) (a b : Nat → Nat) : Nat :=
  (List.range nChannels).foldl (fun oResult c => (oResult + L2sqrdist (a c) (b c)) % SIZE_MOD) 0

/-- Multi-element `L2sqrdist<nChannels>(a, b, nElements, m)`. -/
def L2sqrdistElems (nChannels : Nat) (a b : Nat → Nat) (nElements : Nat)
    (m : Option (Nat → Nat)) : Outcome Nat :=
  elemsBody (fun n => Outcome.ret (L2sqrdistVec nChannels (offset a n) (offset b n)))
    nChannels nElements m

/-- Runtime-dispatched `L2sqrdist(a, b, nElements, nChannels, m)`: `CV_Assert`, then the
dispatch on the channel count. -/
def L2sqrdistDyn (a b : Nat → Nat) (nElements nChannels : Nat) (m : Option (Nat → Nat)) :
    Outcome Nat :=
  if ¬ (nChannels > 0 ∧ nChannels ≤ 4) then Outcome.assertFailed
  else
    match nChannels with
    | 1 => L2sqrdistElems 1 a b nElements m
    | 2 => L2sqrdistElems 2 a b nElements m
    | 3 => L2sqrdistElems 3 a b nElements m
    | 4 => L2sqrdistElems 4 a b nElements m
    | _ => Outcome.ret 0

/-- The flags computed by the first loop of `cdist<nChannels>(curr,bg)`. -/
structure CdistFlags where
  bNonConstDist : Bool
  bNonNullDist : Bool
  bNonNullBG : Bool
  deriving DecidableEq, Repr

/-- The flags after `bool bNonConstDist = false; bool bNonNullDist = (curr[0]!=bg[0]);
bool bNonNullBG = (bg[0]>0);` and the loop `for(size_t c=1; c<nChannels; ++c)`. -/
def cdistFlags (nChannels : Nat) (curr bg : Nat → Nat) : CdistFlags :=
  ((List.range nChannels).drop 1).foldl
    (fun f c =>
      { bNonConstDist := f.bNonConstDist || (curr c != curr (c - 1) || bg c != bg (c - 1))
        bNonNullDist := f.bNonNullDist || curr c != bg c
        bNonNullBG := f.bNonNullBG || decide (bg c > 0) })
    { bNonConstDist := false
      bNonNullDist := curr 0 != bg 0
      bNonNullBG := decide (bg 0 > 0) }

/-- The loop `for(size_t c=0; c<nChannels; ++c) nulldist += curr[c];`. -/
def cdistNullDist (nChannels : Nat) (curr : Nat → Nat) : Nat :=
  (List.range nChannels).foldl (fun nulldist c => (nulldist + curr c) % SIZE_MOD) 0

/-- The accumulators `curr_sqr`, `bg_sqr` and `mix` of `cdist`. -/
structure CdistSums where
  curr_sqr : Nat
  bg_sqr : Nat
  mix : Nat
  deriving DecidableEq, Repr

/-- The loop `curr_sqr += curr[c]*curr[c]; bg_sqr += bg[c]*bg[c]; mix += curr[c]*bg[c];`
(the products of two `uchar` are `int` products, at most `255*255`; the products of two
elements of a 64-bit unsigned type wrap modulo `2^64`, as the `size_t` accumulators do, so the
sums modulo `2^64` are the same). -/
def cdistSums (nChannels : Nat) (curr bg : Nat → Nat) : CdistSums :=
  (List.range nChannels).foldl
    (fun s c =>
      { curr_sqr := (s.curr_sqr + curr c * curr c) % SIZE_MOD
        bg_sqr := (s.bg_sqr + bg c * bg c) % SIZE_MOD
        mix := (s.mix + curr c * bg c) % SIZE_MOD })
    { curr_sqr := 0, bg_sqr := 0, mix := 0 }

/-- The place where `cdist<nChannels>(curr,bg)` leaves its two guards: the first `return 0`,
the `return nulldist` of the null-background branch, or the final statement with the division by
`bg_sqr`, reached with the three accumulators. -/
inductive CdistPath where
  | earlyZero
  | nullBackground (nulldist : Nat)
  | division (s : CdistSums)
  deriving DecidableEq, Repr

/-- The control flow of `cdist<nChannels>(curr,bg)` up to its last statement. -/
def cdistPath (nChannels : Nat) (curr bg : Nat → Nat) : CdistPath :=
  let f := cdistFlags nChannels curr bg
  if !f.bNonConstDist || !f.bNonNullDist then CdistPath.earlyZero
  else if !f.bNonNullBG then CdistPath.nullBackground (cdistNullDist nChannels curr)
  else CdistPath.division (cdistSums nChannels curr bg)

/-- Fixed-channel `cdist<nChannels>(const T* curr, const T* bg)`, integral overload. Its last
statement is `return (size_t)sqrt((float)(curr_sqr-(mix*mix)/bg_sqr));` in `size_t` arithmetic; the
floating-point round trip `x ↦ (size_t)sqrt((float)x)` is the parameter `fsqrt`. -/
def cdistVec (fsqrt : Nat → Nat) (nChannels : Nat) (curr bg : Nat → Nat) : Outcome Nat :=
  match cdistPath nChannels curr bg with
  | CdistPath.earlyZero => Outcome.ret 0
  | CdistPath.nullBackground nulldist => Outcome.ret nulldist
  | CdistPath.division s =>
    if s.bg_sqr = 0 then Outcome.divByZero
    else
      Outcome.ret
        (fsqrt ((s.curr_sqr + SIZE_MOD - (s.mix * s.mix) % SIZE_MOD / s.bg_sqr) % SIZE_MOD))

/-- Multi-element `cdist<nChannels>(a, b, nElements, m)`. -/
def cdistElems (fsqrt : Nat → Nat) (nChannels : Nat) (a b : Nat → Nat) (nElements : Nat)
    (m : Option (Nat → Nat)) : Outcome Nat :=
  elemsBody (fun n => cdistVec fsqrt nChannels (offset a n) (offset b n)) nChannels nElements m

/-- Runtime-dispatched `cdist(a, b, nElements, nChannels, m)`: `CV_Assert`, then the
dispatch on the channel count. -/
def cdistDyn (fsqrt : Nat → Nat) (a b : Nat → Nat) (nElements nChannels : Nat)
    (m : Option (Nat → Nat)) : Outcome Nat :=
  if ¬ (nChannels > 0 ∧ nChannels ≤ 4) then Outcome.assertFailed
  else
    match nChannels with
    | 2 => cdistElems fsqrt 2 a b nElements m
    | 3 => cdistElems fsqrt 3 a b nElements m
    | 4 => cdistElems fsqrt 4 a b nElements m
    | _ => Outcome.ret 0

/-! ## Population count and Hamming distance -/

/-- The table `popcount_LUT8[256]`. -/
def popcount_LUT8 : List Nat := [
  0, 1, 1, 2, 1, 2, 2, 3, 1, 2, 2, 3, 2, 3, 3, 4,
  1, 2, 2, 3, 2, 3, 3, 4, 2, 3, 3, 4, 3, 4, 4, 5,
  1, 2, 2, 3, 2, 3, 3, 4, 2, 3, 3, 4, 3, 4, 4, 5,
  2, 3, 3, 4, 3, 4, 4, 5, 3, 4, 4, 5, 4, 5, 5, 6,
  1, 2, 2, 3, 2, 3, 3, 4, 2, 3, 3, 4, 3, 4, 4, 5,
  2, 3, 3, 4, 3, 4, 4, 5, 3, 4, 4, 5, 4, 5, 5, 6,
  2, 3, 3, 4, 3, 4, 4, 5, 3, 4, 4, 5, 4, 5, 5, 6,
  3, 4, 4, 5, 4, 5, 5, 6, 4, 5, 5, 6, 5, 6, 6, 7,
  1, 2, 2, 3, 2, 3, 3, 4, 2, 3, 3, 4, 3, 4, 4, 5,
  2, 3, 3, 4, 3, 4, 4, 5, 3, 4, 4, 5, 4, 5, 5, 6,
  2, 3, 3, 4, 3, 4, 4, 5, 3, 4, 4, 5, 4, 5, 5, 6,
  3, 4, 4, 5, 4, 5, 5, 6, 4, 5, 5, 6, 5, 6, 6, 7,
  2, 3, 3, 4, 3, 4, 4, 5, 3, 4, 4, 5, 4, 5, 5, 6,
  3, 4, 4, 5, 4, 5, 5, 6, 4, 5, 5, 6, 5, 6, 6, 7,
  3, 4, 4, 5, 4, 5, 5, 6, 4, 5, 5, 6, 5, 6, 6, 7,
  4, 5, 5, 6, 5, 6, 6, 7, 5, 6, 6, 7, 6, 7, 7, 8]

/-- An integer type `T`: `sizeof(T)` and its signedness. Its values are the integers of its
range; a negative value stands for its twos-complement bit pattern. -/
structure IntType where
  size : Nat
  isSigned : Bool
  deriving DecidableEq, Repr

/-- The values of `T`. -/
def IntType.inRange (T : IntType) (v : Int) : Prop :=
  if T.isSigned then -(2 ^ (8 * T.size - 1)) ≤ v ∧ v < 2 ^ (8 * T.size - 1)
  else 0 ≤ v ∧ v < 2 ^ (8 * T.size)

instance (T : IntType) (v : Int) : Decidable (T.inRange v) := by
  unfold IntType.inRange
  exact inferInstance

/-- Conversion of an integer value to `T` (reduction modulo `2^(8*sizeof(T))` into its range). -/
def IntType.cast (T : IntType) (v : Int) : Int :=
  if T.isSigned then
    (v + 2 ^ (8 * T.size - 1)) % 2 ^ (8 * T.size) - 2 ^ (8 * T.size - 1)
  else v % 2 ^ (8 * T.size)

/-- The type of an arithmetic expression on operands of type `T` (integral promotion): a type
narrower than the 4-byte `int` becomes `int`, a wider one is kept. -/
def IntType.promoted (T : IntType) : IntType :=
  if T.size < 4 then { size := 4, isSigned := true } else T

/-- The cast `(uchar)z`. -/
def castUchar (z : Int) : Nat := (z % 256).toNat

/-- Scalar `popcount(T x)`:
`for(size_t l=0; l<sizeof(T); ++l) nResult += popcount_LUT8[(uchar)(x>>l*8)];`
(the shift of a negative value is the arithmetic one). -/
def popcount (T : IntType) (x : Int) : Nat :=
  (List.range T.size).foldl
    (fun (nResult l : Nat) =>
      (nResult + popcount_LUT8.getD (castUchar (Int.shiftRight x (l * 8))) 0) % SIZE_MOD) 0

/-- Scalar `hdist(T a, T b)`: `return popcount(a^b);`. The argument `a^b` has the promoted type
of `T`, which is the type `popcount` is instantiated at. -/
def hdist (T : IntType) (a b : Int) : Nat :=
  popcount T.promoted (Int.xor a b)

/-- Fixed-channel `popcount<nChannels>(const T* x)`: the two nested loops over the channels and
over the bytes of each channel. -/
def popcountVec (nChannels : Nat) (T : IntType) (x : Nat → Int) : Nat :=
  (List.range nChannels).foldl
    (fun (nResult c : Nat) =>
      (List.range T.size).foldl
        (fun (nResult l : Nat) =>
          (nResult + popcount_LUT8.getD (castUchar (Int.shiftRight (x c) (l * 8))) 0) % SIZE_MOD)
        nResult)
    0

/-- Fixed-channel `hdist<nChannels>(const T* a, const T* b)`: `xor_array[c] = a[c]^b[c]` is
stored back into a `T`, then `popcount<nChannels>(xor_array)`. -/
def hdistVec (nChannels : Nat) (T : IntType) (a b : Nat → Int) : Nat :=
  popcountVec nChannels T (fun c => T.cast (Int.xor (a c) (b c)))

/-! ## Scalar L1 distance for every integral type, gradient distance, distance mix -/

/-- The type `size_t`: 8 bytes, unsigned. -/
def sizeT : IntType := { size := 8, isSigned := false }

/-- The value of the subexpression `(int)a-b` of `L1dist(T a, T b)` for an integral `T`: `a` is
converted to `int`, `b` is promoted, the `int` operand is converted to the promoted type of `T`
and the subtraction is done in that type: modulo `2^(8*sizeof)` for an unsigned type (a signed
overflow, undefined in C++, is taken to wrap as well). -/
def L1distDiff (T : IntType) (a b : Int) : Int :=
  T.promoted.cast (castInt a - b)

/-- Scalar `L1dist(T a, T b)` for an integral `T`: `(size_t)abs((int)a-b)`. The function `abs`
is the C library function `int abs(int)`, the declaration with which the call is well-formed for
every integral `T`: its argument is converted to `int` and its `int` result is converted to
`size_t`. -/
def L1distT (T : IntType) (a b : Int) : Nat :=
  (castInt |castInt (L1distDiff T a b)| % (SIZE_MOD : Int)).toNat

/-- Scalar `gdist(T a, T b)`: `return L1dist(popcount(a),popcount(b));`, the two population
counts being `size_t` values. -/
def gdist (T : IntType) (a b : Int) : Nat :=
  L1distT sizeT (popcount T a) (popcount T b)

/-- Fixed-channel `gdist<nChannels>(const T* a, const T* b)`:
`return L1dist(popcount<nChannels>(a),popcount<nChannels>(b));`. -/
def gdistVec (nChannels : Nat) (T : IntType) (a b : Nat → Int) : Nat :=
  L1distT sizeT (popcountVec nChannels T a) (popcountVec nChannels T b)

/-- Scalar `cmixdist(T oL1Distance, T oCDistortion)` at `T = size_t`:
`return (oL1Distance/2+oCDistortion*4);`. -/
def cmixdist (oL1Distance oCDistortion : Nat) : Nat :=
  (oL1Distance / 2 + (oCDistortion * 4) % SIZE_MOD) % SIZE_MOD

/-- Fixed-channel `cmixdist<nChannels>(const T* curr, const T* bg)`, integral overload at
`T = uchar`: `return cmixdist(L1dist<nChannels>(curr,bg),cdist<nChannels>(curr,bg));`. -/
def cmixdistVec (fsqrt : Nat → Nat) (nChannels : Nat) (curr bg : Nat → Nat) : Outcome Nat :=
  (cdistVec fsqrt nChannels curr bg).andThen fun oCDistortion =>
    Outcome.ret (cmixdist (L1distVec nChannels curr bg) oCDistortion)

/-! ## Notions used to state the properties, and example inputs -/

/-- Number of 1 bits among the `w` low-order bits of `x` (twos-complement for a negative `x`). -/
def bitCount (w : Nat) (x : Int) : Nat :=
  ((List.range w).filter (fun k => Int.testBit x k)).length

/-- Byte `l` of `x`, counted from the least significant one. -/
def byteAt (x : Int) (l : Nat) : Nat := ((x / 2 ^ (8 * l)) % 256).toNat

/-- Number of bit positions below `w` at which `x` and `y` differ. -/
def bitDiffCount (w : Nat) (x y : Int) : Nat :=
  ((List.range w).filter (fun k => Int.testBit x k != Int.testBit y k)).length

/-- A 3-channel pixel. -/
def exA : Nat → Nat := fun c => [10, 200, 30].getD c 0

/-- A second 3-channel pixel. -/
def exB : Nat → Nat := fun c => [15, 100, 30].getD c 0

/-- Two elements of two channels each. -/
def exP : Nat → Nat := fun k => [10, 20, 30, 40].getD k 0

/-- Two more elements of two channels each. -/
def exQ : Nat → Nat := fun k => [30, 20, 10, 0].getD k 0

/-- A mask that keeps the second of two elements. -/
def exMask : Nat → Nat := fun i => [0, 1].getD i 0

/-- A current colour vector. -/
def exCurr : Nat → Nat := fun c => [1, 2, 3].getD c 0

/-- A background colour vector. -/
def exBg : Nat → Nat := fun c => [30, 20, 10].getD c 0

end DistanceUtils

/-!
# StereoSegmMatcher (litiv): label values and cost relations

The constants, macros and inline members of `ForegroundStereoMatcher.hpp`. The constructor,
`getLabels`, `apply` and the inference engines are only declared in that header; they have no
body to translate and are not modelled.
-/

namespace StereoSegmMatcher

open DistanceUtils (IntType)

/-- The value `std::numeric_limits<T>::min()` of an integer type. -/
def numericMin (T : IntType) : Int :=
  if T.isSigned then -(2 ^ (8 * T.size - 1)) else 0

/-- The value `std::numeric_limits<T>::max()` of an integer type. -/
def numericMax (T : IntType) : Int :=
  if T.isSigned then 2 ^ (8 * T.size - 1) - 1 else 2 ^ (8 * T.size) - 1

/-- The type `InternalLabelType = uint8_t`. -/
def InternalLabelType : IntType := { size := 1, isSigned := false }

/-- The type `OutputLabelType = int32_t`. -/
def OutputLabelType : IntType := { size := 4, isSigned := true }

/-- The constant `s_nDontCareLabel = std::numeric_limits<OutputLabelType>::min()`. -/
def s_nDontCareLabel : Int := numericMin OutputLabelType

/-- The constant `s_nOccludedLabel = std::numeric_limits<OutputLabelType>::max()`. -/
def s_nOccludedLabel : Int := numericMax OutputLabelType

/-- The constant
`s_nForegroundLabel = OutputLabelType(std::numeric_limits<InternalLabelType>::max())`. -/
def s_nForegroundLabel : Int := OutputLabelType.cast (numericMax InternalLabelType)

/-- The constant `s_nBackgroundLabel = OutputLabelType(0)`. -/
def s_nBackgroundLabel : Int := OutputLabelType.cast 0

/-- The output label `OutputLabelType(d)` of a disparity offset `d`, a `size_t` value. -/
def dispLabel (d : Nat) : Int := OutputLabelType.cast (d : Int)

/-- Rounding of a rational to the nearest integer, a tie going to the even neighbour. -/
def roundTiesEven (k : ℚ) : Int :=
  if k - (⌊k⌋ : ℚ) < 1 / 2 then ⌊k⌋
  else if 1 / 2 < k - (⌊k⌋ : ℚ) then ⌊k⌋ + 1
  else if ⌊k⌋ % 2 = 0 then ⌊k⌋ else ⌊k⌋ + 1

/-- The exponent of a non-zero rational in the binary32 format: `floor(log2 |x|)`, and -126 for
the subnormal values. -/
def binary32Exp (x : ℚ) : Int := max (Int.log 2 |x|) (-126)

/-- The `float` (IEEE 754 binary32) nearest to the real value `x`, ties to even: the result of a
conversion to `float` and of a `float` operation whose exact result is `x`. A binary32 value is a
multiple of `2^(e-23)`, `e` the exponent of `x` (24 significant bits). The overflow to infinity,
from `2^128` on, is not modelled. -/
def roundBinary32 (x : ℚ) : ℚ :=
  if x = 0 then 0
  else
    (if x < 0 then -1 else 1) *
      ((roundTiesEven (|x| / 2 ^ (binary32Exp x - 23)) : Int) : ℚ) * 2 ^ (binary32Exp x - 23)

/-- The macro `STEREOSEGMATCH_UNIQUE_COST_INCR_REL(n) = (float((n)*3)/((n)+2))` on a count `n`
(`n*3` within its integer type): `(n)*3` is converted to `float`, `(n)+2` is converted to `float`
for the division, and the quotient is the `float` division of the two. -/
def STEREOSEGMATCH_UNIQUE_COST_INCR_REL (n : Nat) : ℚ :=
  roundBinary32 (roundBinary32 ((n * 3 : Nat) : ℚ) / roundBinary32 ((n + 2 : Nat) : ℚ))

/-- The integer nearest to `p/q`, ties to even, in natural-number arithmetic: the value of
`roundTiesEven` on a quotient of naturals, in a form that evaluates. -/
def divRoundEven (p q : Nat) : Nat :=
  if 2 * (p % q) < q then p / q
  else if q < 2 * (p % q) then p / q + 1
  else if (p / q) % 2 = 0 then p / q else p / q + 1

/-- The type `ValueType = int64_t`, used for the factor values (the costs). -/
def ValueType : IntType := { size := 8, isSigned := true }

/-- The member `cost_cast(TVal val)` at an integral `TVal`: `return (ValueType)val;`, the
conversion of an integer value to `int64_t`. -/
def cost_cast (val : Int) : Int := ValueType.cast val

/-- The member `cost_cast(TVal val)` at a floating-point `TVal`, the finite argument given by its
exact value `num/den`: `return (ValueType)val;`. The conversion of a floating-point value to an
integer type discards the fractional part (the quotient of `num` by `den` rounded toward zero);
it is undefined, here `none`, when that integer is not a value of `ValueType`. -/
def cost_castFloat (val : ℚ) : Option Int :=
  let t := Int.tdiv val.num (val.den : Int)
  if ValueType.inRange t then some t else none

end StereoSegmMatcher

namespace DistanceUtils

/-! ## Accumulation in `size_t` -/

theorem castInt_of_small (z : Int) (h0 : 0 ≤ z) (h1 : z < 2 ^ 31) : castInt z = z := by
  unfold castInt
  omega

theorem foldl_add_mod (f : Nat → Nat) (n : Nat) :
    (List.range n).foldl (fun oResult c => (oResult + f c) % SIZE_MOD) 0
      = (∑ c in Finset.range n, f c) % SIZE_MOD := by
  induction n with
  | zero => simp [SIZE_MOD]
  | succ k ih =>
    rw [List.range_succ, List.foldl_append, ih, Finset.sum_range_succ]
    simp [Nat.mod_add_mod]

theorem foldl_add_mod_init (g : Nat → Nat) (N acc : Nat) (hacc : acc < SIZE_MOD) :
    (List.range N).foldl (fun r l => (r + g l) % SIZE_MOD) acc
      = (acc + ∑ l in Finset.range N, g l) % SIZE_MOD := by
  induction N with
  | zero => simp [Nat.mod_eq_of_lt hacc]
  | succ N ih =>
    rw [List.range_succ, List.foldl_append, ih, Finset.sum_range_succ]
    simp [Nat.mod_add_mod, Nat.add_assoc]

theorem sum_le_mul (f : Nat → Nat) (B n : Nat) (h : ∀ c, c < n → f c ≤ B) :
    ∑ c in Finset.range n, f c ≤ n * B := by
  calc ∑ c in Finset.range n, f c ≤ ∑ _c in Finset.range n, B :=
        Finset.sum_le_sum (fun c hc => h c (Finset.mem_range.mp hc))
    _ = n * B := by simp

/-! ## L1 and squared L2 distance of one element -/

theorem L1dist_uchar (x y : Nat) (hx : x < 256) (hy : y < 256) :
    L1dist x y = Int.natAbs ((x : Int) - (y : Int)) ∧ L1dist x y ≤ 255 := by
  unfold L1dist SIZE_MOD
  rw [castInt_of_small _ (by omega) (by omega)]
  omega

theorem L2sqrdist_uchar (x y : Nat) (hx : x < 256) (hy : y < 256) :
    L2sqrdist x y = L1dist x y ^ 2 ∧ L2sqrdist x y ≤ 65025 := by
  have h := (L1dist_uchar x y hx hy).2
  have h2 : L1dist x y * L1dist x y ≤ 255 * 255 := Nat.mul_le_mul h h
  unfold L2sqrdist
  simp only []
  rw [Nat.mod_eq_of_lt (by unfold SIZE_MOD; omega), sq]
  exact ⟨rfl, h2⟩

theorem L1distVec_le (n : Nat) (a b : Nat → Nat)
    (ha : ∀ c, c < n → a c < 256) (hb : ∀ c, c < n → b c < 256) :
    L1distVec n a b ≤ n * 255 := by
  unfold L1distVec
  rw [foldl_add_mod]
  exact le_trans (Nat.mod_le _ _)
    (sum_le_mul _ 255 n (fun c hc => (L1dist_uchar _ _ (ha c hc) (hb c hc)).2))

theorem L2sqrdistVec_le (n : Nat) (a b : Nat → Nat)
    (ha : ∀ c, c < n → a c < 256) (hb : ∀ c, c < n → b c < 256) :
    L2sqrdistVec n a b ≤ n * 65025 := by
  unfold L2sqrdistVec
  rw [foldl_add_mod]
  exact le_trans (Nat.mod_le _ _)
    (sum_le_mul _ 65025 n (fun c hc => (L2sqrdist_uchar _ _ (ha c hc) (hb c hc)).2))

/-- Claim C1. For n-channel arrays `a`, `b` of 8-bit unsigned values, `L1dist<n>(a,b)` is
exactly the sum over the channels `c < n` of `|a[c] - b[c]|` (the arrays are small enough for
the sum of n bytes to fit `size_t`: `n * 255 < 2^64`). -/
theorem L1distVec_eq_sum_abs (n : Nat) (a b : Nat → Nat) (hfit : n * 255 < 2 ^ 64)
    (ha : ∀ c, c < n → a c < 256) (hb : ∀ c, c < n → b c < 256) :
    ((L1distVec n a b : Nat) : Int)
      = ∑ c in Finset.range n, |(a c : Int) - (b c : Int)| := by
  unfold L1distVec
  rw [foldl_add_mod]
  have hle : ∑ c in Finset.range n, L1dist (a c) (b c) ≤ n * 255 :=
    sum_le_mul (fun c => L1dist (a c) (b c)) 255 n
      (fun c hc => (L1dist_uchar _ _ (ha c hc) (hb c hc)).2)
  rw [Nat.mod_eq_of_lt (by unfold SIZE_MOD; omega)]
  push_cast
  refine Finset.sum_congr rfl (fun c hc => ?_)
  have hc' := Finset.mem_range.mp hc
  rw [(L1dist_uchar _ _ (ha c hc') (hb c hc')).1]
  simp

theorem L1distVec_eq_sum_abs_witness :
    (3 * 255 < 2 ^ 64 ∧ (∀ c, c < 3 → exA c < 256) ∧ (∀ c, c < 3 → exB c < 256)) ∧
    ((L1distVec 3 exA exB : Nat) : Int)
      = ∑ c in Finset.range 3, |(exA c : Int) - (exB c : Int)| :=
  ⟨⟨by decide, by decide, by decide⟩,
    L1distVec_eq_sum_abs 3 exA exB (by decide) (by decide) (by decide)⟩

/-- Claim C2. For n-channel arrays `a`, `b` of 8-bit unsigned values, `L2sqrdist<n>(a,b)` is exactly
the sum over the channels `c < n` of `(a[c] - b[c])^2`, and the scalar `L2sqrdist(x,y)` is the
square of `L1dist(x,y)` (the arrays are small enough for the sum of n squares to fit `size_t`:
`n * 65025 < 2^64`). -/
theorem L2sqrdistVec_eq_sum_sq (n : Nat) (a b : Nat → Nat) (hfit : n * 65025 < 2 ^ 64)
    (ha : ∀ c, c < n → a c < 256) (hb : ∀ c, c < n → b c < 256) :
    ((L2sqrdistVec n a b : Nat) : Int)
      = ∑ c in Finset.range n, ((a c : Int) - (b c : Int)) ^ 2 ∧
    ∀ x y, x < 256 → y < 256 → L2sqrdist x y = L1dist x y ^ 2 := by
  refine ⟨?_, fun x y hx hy => (L2sqrdist_uchar x y hx hy).1⟩
  unfold L2sqrdistVec
  rw [foldl_add_mod]
  have hle : ∑ c in Finset.range n, L2sqrdist (a c) (b c) ≤ n * 65025 :=
    sum_le_mul (fun c => L2sqrdist (a c) (b c)) 65025 n
      (fun c hc => (L2sqrdist_uchar _ _ (ha c hc) (hb c hc)).2)
  rw [Nat.mod_eq_of_lt (by unfold SIZE_MOD; omega)]
  push_cast
  refine Finset.sum_congr rfl (fun c hc => ?_)
  have hc' := Finset.mem_range.mp hc
  rw [(L2sqrdist_uchar _ _ (ha c hc') (hb c hc')).1, (L1dist_uchar _ _ (ha c hc') (hb c hc')).1]
  push_cast
  rw [sq_abs]

theorem L2sqrdistVec_eq_sum_sq_witness :
    (3 * 65025 < 2 ^ 64 ∧ (∀ c, c < 3 → exA c < 256) ∧ (∀ c, c < 3 → exB c < 256)) ∧
    (((L2sqrdistVec 3 exA exB : Nat) : Int)
        = ∑ c in Finset.range 3, ((exA c : Int) - (exB c : Int)) ^ 2 ∧
      ∀ x y, x < 256 → y < 256 → L2sqrdist x y = L1dist x y ^ 2) :=
  ⟨⟨by decide, by decide, by decide⟩,
    L2sqrdistVec_eq_sum_sq 3 exA exB (by decide) (by decide) (by decide)⟩

/-! ## The population count table -/

theorem digits_sum_bits (w : Nat) : ∀ i, i < 2 ^ w →
    (Nat.digits 2 i).sum = ((List.range w).filter (fun k => i.testBit k)).length := by
  induction w with
  | zero => intro i hi; simp at hi; subst hi; simp
  | succ w ih =>
    intro i hi
    rcases Nat.eq_zero_or_pos i with h0 | hpos
    · subst h0; simp
    · rw [Nat.digits_def' (by norm_num) hpos, List.sum_cons, ih (i / 2) (by omega)]
      have hshift : (fun k => i.testBit k) ∘ Nat.succ = fun k => (i / 2).testBit k := by
        funext k; simp [Nat.testBit_succ]
      rw [List.range_succ_eq_map, List.filter_cons, List.filter_map, hshift]
      rcases Nat.mod_two_eq_zero_or_one i with h | h
      · simp [Nat.testBit_zero, h]
      · simp [Nat.testBit_zero, h]; omega

set_option maxRecDepth 100000 in
theorem lut8_testBit : ∀ i, i < 256 →
    popcount_LUT8.getD i 0 = ((List.range 8).filter (fun k => i.testBit k)).length := by
  decide

/-- Claim C3. For every byte value `i` in 0..255 the table entry `popcount_LUT8[i]` is the number of
1 bits in the binary representation of `i` (the sum of its binary digits). -/
theorem popcount_LUT8_eq_bit_count (i : Nat) (hi : i < 256) :
    popcount_LUT8.getD i 0 = (Nat.digits 2 i).sum := by
  rw [digits_sum_bits 8 i (by simpa using hi)]
  exact lut8_testBit i hi

theorem popcount_LUT8_eq_bit_count_witness :
    181 < 256 ∧ popcount_LUT8.getD 181 0 = (Nat.digits 2 181).sum :=
  ⟨by decide, popcount_LUT8_eq_bit_count 181 (by decide)⟩

/-! ## Population count -/

theorem castUchar_lt (z : Int) : castUchar z < 256 := by
  unfold castUchar
  omega

theorem testBit_castUchar_shift (x : Int) (s k : Nat) (hk : k < 8) :
    (castUchar (Int.shiftRight x s)).testBit k = Int.testBit x (s + k) := by
  unfold castUchar
  cases x with
  | ofNat m =>
    have h1 : Int.shiftRight (Int.ofNat m) s = Int.ofNat (m >>> s) := rfl
    have h2 : (Int.ofNat (m >>> s) % 256).toNat = (m >>> s) % 2 ^ 8 := by
      simp only [Int.ofNat_eq_coe]; omega
    rw [h1, h2, Nat.testBit_mod_two_pow, Nat.testBit_shiftRight]
    simp [hk, Int.testBit]
  | negSucc m =>
    have h1 : Int.shiftRight (Int.negSucc m) s = Int.negSucc (m >>> s) := rfl
    have h2 : (Int.negSucc (m >>> s) % 256).toNat = 2 ^ 8 - ((m >>> s) % 2 ^ 8 + 1) := by
      have := Int.negSucc_eq (m >>> s)
      omega
    rw [h1, h2, Nat.testBit_two_pow_sub_succ (Nat.mod_lt _ (by norm_num)),
      Nat.testBit_mod_two_pow, Nat.testBit_shiftRight]
    simp [hk, Int.testBit]

theorem bitCount_le (w : Nat) (x : Int) : bitCount w x ≤ w := by
  unfold bitCount
  calc _ ≤ (List.range w).length := List.length_filter_le _ _
    _ = w := List.length_range w

theorem bitCount_add (w v : Nat) (x : Int) :
    bitCount (w + v) x
      = bitCount w x + ((List.range v).filter (fun k => Int.testBit x (w + k))).length := by
  unfold bitCount
  rw [List.range_add, List.filter_append, List.length_append, List.filter_map, List.length_map]
  rfl

theorem lut8_castUchar_shift (x : Int) (s : Nat) :
    popcount_LUT8.getD (castUchar (Int.shiftRight x s)) 0
      = ((List.range 8).filter (fun k => Int.testBit x (s + k))).length := by
  rw [lut8_testBit _ (castUchar_lt _)]
  congr 1
  apply List.filter_congr
  intro k hk
  exact testBit_castUchar_shift x s k (List.mem_range.mp hk)

theorem sum_lut8_bytes (x : Int) (N : Nat) :
    ∑ l in Finset.range N, popcount_LUT8.getD (castUchar (Int.shiftRight x (l * 8))) 0
      = bitCount (N * 8) x := by
  induction N with
  | zero => simp [bitCount]
  | succ N ih =>
    rw [Finset.sum_range_succ, ih, Nat.succ_mul, bitCount_add, lut8_castUchar_shift]

theorem castUchar_shift_eq_byteAt (x : Int) (l : Nat) :
    castUchar (Int.shiftRight x (l * 8)) = byteAt x l := by
  unfold castUchar byteAt
  have h := Int.shiftRight_eq_div_pow x (l * 8)
  rw [show Int.shiftRight x (l * 8) = x >>> (l * 8) from rfl, h, Nat.mul_comm]
  norm_cast

theorem popcount_eq_sum (T : IntType) (x : Int) :
    popcount T x = bitCount (T.size * 8) x % SIZE_MOD := by
  unfold popcount
  rw [foldl_add_mod, sum_lut8_bytes]

/-- Claim C4. For a value `x` of an N-byte integer type (N at most 8), `popcount(x)` is the
number of 1 bits among the `8*N` bits of `x`, and it is the sum of the table entries of the N
bytes of `x`, each byte taken once. -/
theorem popcount_eq_bitCount (T : IntType) (x : Int) (hN : T.size ≤ 8) :
    popcount T x = bitCount (8 * T.size) x ∧
    popcount T x = ∑ l in Finset.range T.size, popcount_LUT8.getD (byteAt x l) 0 := by
  have hle := bitCount_le (T.size * 8) x
  have h1 : popcount T x = bitCount (T.size * 8) x := by
    rw [popcount_eq_sum, Nat.mod_eq_of_lt (by unfold SIZE_MOD; omega)]
  refine ⟨by rw [h1, Nat.mul_comm], ?_⟩
  rw [h1, ← sum_lut8_bytes]
  exact Finset.sum_congr rfl (fun l _ => by rw [castUchar_shift_eq_byteAt])

theorem popcount_eq_bitCount_witness :
    2 ≤ 8 ∧
    popcount { size := 2, isSigned := true } (-2) = bitCount (8 * 2) (-2) ∧
    popcount { size := 2, isSigned := true } (-2)
      = ∑ l in Finset.range 2, popcount_LUT8.getD (byteAt (-2) l) 0 :=
  ⟨by decide, popcount_eq_bitCount { size := 2, isSigned := true } (-2) (by decide)⟩

/-! ## Hamming distance -/

theorem bitCount_xor (w : Nat) (x y : Int) :
    bitCount w (Int.xor x y) = bitDiffCount w x y := by
  unfold bitCount bitDiffCount
  congr 1
  apply List.filter_congr
  intro k _
  exact (Int.testBit_lxor x y k).trans
    (by cases Int.testBit x k <;> cases Int.testBit y k <;> rfl)

theorem bitDiffCount_le (w : Nat) (x y : Int) : bitDiffCount w x y ≤ w := by
  rw [← bitCount_xor]
  exact bitCount_le _ _

theorem popcountVec_eq_sum (n : Nat) (T : IntType) (x : Nat → Int) :
    popcountVec n T x = (∑ c in Finset.range n, bitCount (T.size * 8) (x c)) % SIZE_MOD := by
  unfold popcountVec
  induction n with
  | zero => simp [SIZE_MOD]
  | succ n ih =>
    rw [List.range_succ, List.foldl_append, ih, Finset.sum_range_succ]
    simp only [List.foldl_cons, List.foldl_nil]
    rw [foldl_add_mod_init _ _ _ (Nat.mod_lt _ (by unfold SIZE_MOD; norm_num)), sum_lut8_bytes,
      Nat.mod_add_mod]

theorem two_pow_pred_double (w : Nat) (hw : 1 ≤ w) : (2 : Int) ^ w = 2 * 2 ^ (w - 1) := by
  obtain ⟨k, rfl⟩ : ∃ k, w = k + 1 := ⟨w - 1, by omega⟩
  simp [pow_succ, mul_comm]

theorem cast_of_inRange (T : IntType) (hN : 1 ≤ T.size) (v : Int) (hv : T.inRange v) :
    T.cast v = v := by
  unfold IntType.inRange at hv
  unfold IntType.cast
  have hd := two_pow_pred_double (8 * T.size) (by omega)
  have hpos : (0 : Int) < 2 ^ (8 * T.size - 1) := by positivity
  split at hv
  · rename_i hs
    simp only [hs, if_true]
    rw [Int.emod_eq_of_lt (by omega) (by omega)]
    omega
  · rename_i hs
    simp only [hs]
    exact Int.emod_eq_of_lt hv.1 hv.2

theorem xor_inRange (T : IntType) (a b : Int) (ha : T.inRange a) (hb : T.inRange b) :
    T.inRange (Int.xor a b) := by
  unfold IntType.inRange at *
  have key : ∀ (w m n : Nat), (m : Int) < 2 ^ w → (n : Int) < 2 ^ w →
      ((m ^^^ n : Nat) : Int) < 2 ^ w := by
    intro w m n hm hn
    have hm' : m < 2 ^ w := by exact_mod_cast hm
    have hn' : n < 2 ^ w := by exact_mod_cast hn
    exact_mod_cast Nat.xor_lt_two_pow hm' hn'
  split
  · rename_i hs
    simp only [hs, if_true] at ha hb
    cases a with
    | ofNat m =>
      cases b with
      | ofNat n =>
        have := key (8 * T.size - 1) m n (by simpa using ha.2) (by simpa using hb.2)
        show _ ≤ ((m ^^^ n : Nat) : Int) ∧ ((m ^^^ n : Nat) : Int) < _
        constructor
        · have hpos : (0 : Int) < 2 ^ (8 * T.size - 1) := by positivity
          omega
        · exact this
      | negSucc n =>
        have hb1 := hb.1
        rw [Int.negSucc_eq] at hb1
        have := key (8 * T.size - 1) m n (by simpa using ha.2) (by omega)
        show _ ≤ Int.negSucc (m ^^^ n) ∧ Int.negSucc (m ^^^ n) < _
        rw [Int.negSucc_eq]
        have hpos : (0 : Int) < 2 ^ (8 * T.size - 1) := by positivity
        omega
    | negSucc m =>
      have ha1 := ha.1
      rw [Int.negSucc_eq] at ha1
      cases b with
      | ofNat n =>
        have := key (8 * T.size - 1) m n (by omega) (by simpa using hb.2)
        show _ ≤ Int.negSucc (m ^^^ n) ∧ Int.negSucc (m ^^^ n) < _
        rw [Int.negSucc_eq]
        have hpos : (0 : Int) < 2 ^ (8 * T.size - 1) := by positivity
        omega
      | negSucc n =>
        have hb1 := hb.1
        rw [Int.negSucc_eq] at hb1
        have := key (8 * T.size - 1) m n (by omega) (by omega)
        show _ ≤ ((m ^^^ n : Nat) : Int) ∧ ((m ^^^ n : Nat) : Int) < _
        have hpos : (0 : Int) < 2 ^ (8 * T.size - 1) := by positivity
        omega
  · rename_i hs
    simp only [hs] at ha hb
    cases a with
    | ofNat m =>
      cases b with
      | ofNat n =>
        have := key (8 * T.size) m n (by simpa using ha.2) (by simpa using hb.2)
        show _ ≤ ((m ^^^ n : Nat) : Int) ∧ ((m ^^^ n : Nat) : Int) < _
        exact ⟨by omega, this⟩
      | negSucc n =>
        have hb1 := hb.1
        rw [Int.negSucc_eq] at hb1
        omega
    | negSucc m =>
      have ha1 := ha.1
      rw [Int.negSucc_eq] at ha1
      omega

/-- The array overload counts differing bits: for arrays of values of an N-byte integer type,
`hdist<n>(a,b)` is the number of bit positions, out of the `8*N` of each of the `n` channels,
at which `a` and `b` differ. -/
theorem hdistVec_eq_bitDiffCount (n : Nat) (T : IntType) (a b : Nat → Int)
    (hN1 : 1 ≤ T.size) (hN8 : T.size ≤ 8) (hfit : n * 64 < 2 ^ 64)
    (ha : ∀ c, c < n → T.inRange (a c)) (hb : ∀ c, c < n → T.inRange (b c)) :
    hdistVec n T a b = ∑ c in Finset.range n, bitDiffCount (8 * T.size) (a c) (b c) := by
  unfold hdistVec
  rw [popcountVec_eq_sum]
  have hsum : ∑ c in Finset.range n, bitCount (T.size * 8) (T.cast (Int.xor (a c) (b c)))
      = ∑ c in Finset.range n, bitDiffCount (8 * T.size) (a c) (b c) := by
    refine Finset.sum_congr rfl (fun c hc => ?_)
    have hc' := Finset.mem_range.mp hc
    rw [cast_of_inRange T hN1 _ (xor_inRange T _ _ (ha c hc') (hb c hc')), bitCount_xor,
      Nat.mul_comm]
  rw [hsum]
  have hle : ∑ c in Finset.range n, bitDiffCount (8 * T.size) (a c) (b c) ≤ n * 64 :=
    sum_le_mul _ 64 n (fun c _ => le_trans (bitDiffCount_le _ _ _) (by omega))
  exact Nat.mod_eq_of_lt (by unfold SIZE_MOD; omega)

theorem bitCount_of_lt_two_pow (w d : Nat) (v : Int) (h0 : 0 ≤ v) (h1 : v < 2 ^ w) :
    bitCount (w + d) v = bitCount w v := by
  rw [bitCount_add]
  have hnil : (List.range d).filter (fun k => Int.testBit v (w + k)) = [] := by
    rw [List.filter_eq_nil_iff]
    intro k _
    obtain ⟨m, rfl⟩ := Int.eq_ofNat_of_zero_le h0
    have hm : m < 2 ^ w := by exact_mod_cast h1
    have hlt : m < 2 ^ (w + k) :=
      lt_of_lt_of_le hm (Nat.pow_le_pow_right (by norm_num) (Nat.le_add_right w k))
    simp [Int.testBit, Nat.testBit_lt_two_pow hlt]
  rw [hnil]
  rfl

/-- The scalar overload counts differing bits when `T` is unsigned or at least as wide as
`int`: `hdist(a,b)` is then the number of bit positions, out of `8*N`, at which `a` and `b`
differ. -/
theorem hdist_eq_bitDiffCount (T : IntType) (a b : Int)
    (hN1 : 1 ≤ T.size) (hN8 : T.size ≤ 8) (hT : T.isSigned = false ∨ 4 ≤ T.size)
    (ha : T.inRange a) (hb : T.inRange b) :
    hdist T a b = bitDiffCount (8 * T.size) a b := by
  unfold hdist
  rw [popcount_eq_sum]
  by_cases h4 : 4 ≤ T.size
  · have hP : T.promoted = T := by
      unfold IntType.promoted
      rw [if_neg (by omega)]
    have hle := bitCount_le (T.size * 8) (Int.xor a b)
    rw [hP, Nat.mod_eq_of_lt (by unfold SIZE_MOD; omega), bitCount_xor, Nat.mul_comm]
  · have hs : T.isSigned = false := by
      rcases hT with h | h
      · exact h
      · omega
    have hP : T.promoted.size = 4 := by
      unfold IntType.promoted
      rw [if_pos (by omega)]
    have hx := xor_inRange T a b ha hb
    unfold IntType.inRange at hx
    simp only [hs] at hx
    have hw : 4 * 8 = 8 * T.size + (32 - 8 * T.size) := by omega
    have hle := bitCount_le (8 * T.size) (Int.xor a b)
    rw [hP, hw, bitCount_of_lt_two_pow _ _ _ hx.1 hx.2,
      Nat.mod_eq_of_lt (by unfold SIZE_MOD; omega), bitCount_xor]

/-- Claim C5 (failing input). The scalar `hdist` on two `signed char` values that differ in
all of their 8 bits: the promoted `a^b` is the `int` -1, `popcount` scans its 4 bytes and
returns 32, whereas the array overload `hdist<1>` on the same values returns 8, the number of
differing bits. -/
theorem hdist_signed_char_overcount :
    hdist { size := 1, isSigned := true } (-1) 0 = 32 ∧
    hdistVec 1 { size := 1, isSigned := true } (fun _ => -1) (fun _ => 0) = 8 ∧
    bitDiffCount 8 (-1) 0 = 8 := by
  decide

/-! ## The loops over the elements -/

theorem index_step (nCh E i : Nat) (hfit : E * nCh < SIZE_MOD) (hi : i < E) :
    (i * nCh + nCh) % SIZE_MOD = (i + 1) * nCh := by
  have h1 : (i + 1) * nCh ≤ E * nCh := Nat.mul_le_mul_right nCh hi
  rw [Nat.add_mul, Nat.one_mul] at h1
  rw [Nat.add_mul, Nat.one_mul]
  exact Nat.mod_eq_of_lt (by omega)

theorem count_step (nCh E i : Nat) (hpos : 0 < nCh) (hfit : E * nCh < SIZE_MOD) (hi : i < E) :
    (i + 1) % SIZE_MOD = i + 1 := by
  have h1 : E * 1 ≤ E * nCh := Nat.mul_le_mul_left E hpos
  exact Nat.mod_eq_of_lt (by omega)

theorem maskedLoop_eq (dist : Nat → Outcome Nat) (d : Nat → Nat) (m : Nat → Nat) (nCh E : Nat)
    (hpos : 0 < nCh) (hfit : E * nCh < SIZE_MOD)
    (hd : ∀ j, j < E → dist (j * nCh) = Outcome.ret (d j)) :
    ∀ (fuel i acc : Nat), i ≤ E → E - i < fuel → acc < SIZE_MOD →
      maskedLoop dist m nCh (E * nCh) fuel (i * nCh) i acc
        = Outcome.ret
            ((acc + ∑ j in Finset.Ico i E, (if m j ≠ 0 then d j else 0)) % SIZE_MOD) := by
  intro fuel
  induction fuel with
  | zero => intro i acc _ hf _; omega
  | succ fuel ih =>
    intro i acc hi hf hacc
    unfold maskedLoop
    by_cases hlt : i < E
    · have hn : i * nCh < E * nCh := Nat.mul_lt_mul_of_pos_right hlt hpos
      rw [if_pos hn, index_step nCh E i hfit hlt, count_step nCh E i hpos hfit hlt,
        Finset.sum_eq_sum_Ico_succ_bot hlt]
      by_cases hm : m i ≠ 0
      · rw [if_pos hm, if_pos hm, hd i hlt]
        simp only [Outcome.andThen]
        rw [ih (i + 1) _ hlt (by omega) (Nat.mod_lt _ (by unfold SIZE_MOD; norm_num)),
          Nat.mod_add_mod, Nat.add_assoc]
      · rw [if_neg hm, if_neg hm, ih (i + 1) _ hlt (by omega) hacc, Nat.zero_add]
    · have hE : i = E := by omega
      subst hE
      rw [if_neg (by omega)]
      simp [Nat.mod_eq_of_lt hacc]

theorem plainLoop_eq (dist : Nat → Outcome Nat) (d : Nat → Nat) (nCh E : Nat)
    (hpos : 0 < nCh) (hfit : E * nCh < SIZE_MOD)
    (hd : ∀ j, j < E → dist (j * nCh) = Outcome.ret (d j)) :
    ∀ (fuel i acc : Nat), i ≤ E → E - i < fuel → acc < SIZE_MOD →
      plainLoop dist nCh (E * nCh) fuel (i * nCh) acc
        = Outcome.ret ((acc + ∑ j in Finset.Ico i E, d j) % SIZE_MOD) := by
  intro fuel
  induction fuel with
  | zero => intro i acc _ hf _; omega
  | succ fuel ih =>
    intro i acc hi hf hacc
    unfold plainLoop
    by_cases hlt : i < E
    · have hn : i * nCh < E * nCh := Nat.mul_lt_mul_of_pos_right hlt hpos
      rw [if_pos hn, index_step nCh E i hfit hlt, Finset.sum_eq_sum_Ico_succ_bot hlt, hd i hlt]
      simp only [Outcome.andThen]
      rw [ih (i + 1) _ hlt (by omega) (Nat.mod_lt _ (by unfold SIZE_MOD; norm_num)),
        Nat.mod_add_mod, Nat.add_assoc]
    · have hE : i = E := by omega
      subst hE
      rw [if_neg (by omega)]
      simp [Nat.mod_eq_of_lt hacc]

theorem elemsBody_masked (dist : Nat → Outcome Nat) (d : Nat → Nat) (m : Nat → Nat)
    (nCh E : Nat) (hpos : 0 < nCh) (hfit : E * nCh < SIZE_MOD)
    (hd : ∀ j, j < E → dist (j * nCh) = Outcome.ret (d j)) :
    elemsBody dist nCh E (some m)
      = Outcome.ret ((∑ j in Finset.range E, (if m j ≠ 0 then d j else 0)) % SIZE_MOD) := by
  unfold elemsBody
  simp only [Nat.mod_eq_of_lt hfit]
  have h1 : E * 1 ≤ E * nCh := Nat.mul_le_mul_left E hpos
  have h := maskedLoop_eq dist d m nCh E hpos hfit hd (E * nCh + 1) 0 0 (Nat.zero_le _)
    (by omega) (by unfold SIZE_MOD; norm_num)
  rw [Nat.zero_mul, Nat.zero_add, ← Finset.range_eq_Ico] at h
  exact h

theorem elemsBody_plain (dist : Nat → Outcome Nat) (d : Nat → Nat)
    (nCh E : Nat) (hpos : 0 < nCh) (hfit : E * nCh < SIZE_MOD)
    (hd : ∀ j, j < E → dist (j * nCh) = Outcome.ret (d j)) :
    elemsBody dist nCh E none = Outcome.ret ((∑ j in Finset.range E, d j) % SIZE_MOD) := by
  unfold elemsBody
  simp only [Nat.mod_eq_of_lt hfit]
  have h1 : E * 1 ≤ E * nCh := Nat.mul_le_mul_left E hpos
  have h := plainLoop_eq dist d nCh E hpos hfit hd (E * nCh + 1) 0 0 (Nat.zero_le _)
    (by omega) (by unfold SIZE_MOD; norm_num)
  rw [Nat.zero_mul, Nat.zero_add, ← Finset.range_eq_Ico] at h
  exact h

theorem elemsBody_zero_channels (dist : Nat → Outcome Nat) (E : Nat) (m : Option (Nat → Nat)) :
    elemsBody dist 0 E m = Outcome.ret 0 := by
  unfold elemsBody
  cases m <;> simp [maskedLoop, plainLoop]

theorem elemsBody_spec (dd : Nat → Nat) (B n E : Nat) (m : Nat → Nat)
    (hfit : E * n < SIZE_MOD) (hsum : E * B < SIZE_MOD)
    (hB : ∀ j, j < E → dd (j * n) ≤ B) (h0 : n = 0 → ∀ k, dd k = 0) :
    elemsBody (fun k => Outcome.ret (dd k)) n E (some m)
        = Outcome.ret (∑ i in (Finset.range E).filter (fun i => m i ≠ 0), dd (i * n)) ∧
    elemsBody (fun k => Outcome.ret (dd k)) n E none
        = Outcome.ret (∑ i in Finset.range E, dd (i * n)) := by
  have hle : ∑ i in Finset.range E, dd (i * n) ≤ E * B := sum_le_mul _ B E hB
  have hle2 : ∑ i in (Finset.range E).filter (fun i => m i ≠ 0), dd (i * n) ≤ E * B :=
    le_trans (Finset.sum_le_sum_of_subset (Finset.filter_subset _ _)) hle
  rcases Nat.eq_zero_or_pos n with hn | hn
  · subst hn
    simp [elemsBody_zero_channels, h0 rfl]
  · constructor
    · rw [elemsBody_masked _ (fun j => dd (j * n)) m n E hn hfit (fun j _ => rfl),
        ← Finset.sum_filter, Nat.mod_eq_of_lt (by omega)]
    · rw [elemsBody_plain _ (fun j => dd (j * n)) n E hn hfit (fun j _ => rfl),
        Nat.mod_eq_of_lt (by omega)]

theorem offset_lt (n E : Nat) (a : Nat → Nat) (ha : ∀ k, k < E * n → a k < 256)
    (j : Nat) (hj : j < E) : ∀ c, c < n → offset a (j * n) c < 256 := by
  intro c hc
  have h1 : (j + 1) * n ≤ E * n := Nat.mul_le_mul_right n hj
  rw [Nat.add_mul, Nat.one_mul] at h1
  exact ha _ (by omega)

theorem cdistFlags_one (curr bg : Nat → Nat) :
    cdistFlags 1 curr bg
      = { bNonConstDist := false
          bNonNullDist := curr 0 != bg 0
          bNonNullBG := decide (bg 0 > 0) } := by
  rfl

theorem cdistFlags_succ (n : Nat) (hn : 1 ≤ n) (curr bg : Nat → Nat) :
    cdistFlags (n + 1) curr bg
      = { bNonConstDist := (cdistFlags n curr bg).bNonConstDist
            || (curr n != curr (n - 1) || bg n != bg (n - 1))
          bNonNullDist := (cdistFlags n curr bg).bNonNullDist || curr n != bg n
          bNonNullBG := (cdistFlags n curr bg).bNonNullBG || decide (bg n > 0) } := by
  unfold cdistFlags
  rw [List.range_succ, List.drop_append_of_le_length (by simpa using hn), List.foldl_append]
  rfl

theorem cdistFlags_nonNullBG (curr bg : Nat → Nat) (n : Nat) (hn : 1 ≤ n) :
    (cdistFlags n curr bg).bNonNullBG = true ↔ ∃ c, c < n ∧ 0 < bg c := by
  induction n, hn using Nat.le_induction with
  | base =>
    rw [cdistFlags_one]
    simp
  | succ n hn ih =>
    rw [cdistFlags_succ n hn]
    simp only [Bool.or_eq_true, ih, decide_eq_true_eq]
    constructor
    · rintro (⟨c, hc, h⟩ | h)
      · exact ⟨c, by omega, h⟩
      · exact ⟨n, by omega, h⟩
    · rintro ⟨c, hc, h⟩
      rcases Nat.lt_succ_iff_lt_or_eq.mp hc with h' | h'
      · exact Or.inl ⟨c, h', h⟩
      · subst h'; exact Or.inr h

theorem cdistFlags_nonNullDist (curr bg : Nat → Nat) (n : Nat) (hn : 1 ≤ n) :
    (cdistFlags n curr bg).bNonNullDist = true ↔ ∃ c, c < n ∧ curr c ≠ bg c := by
  induction n, hn using Nat.le_induction with
  | base =>
    rw [cdistFlags_one]
    simp
  | succ n hn ih =>
    rw [cdistFlags_succ n hn]
    simp only [Bool.or_eq_true, ih, bne_iff_ne]
    constructor
    · rintro (⟨c, hc, h⟩ | h)
      · exact ⟨c, by omega, h⟩
      · exact ⟨n, by omega, h⟩
    · rintro ⟨c, hc, h⟩
      rcases Nat.lt_succ_iff_lt_or_eq.mp hc with h' | h'
      · exact Or.inl ⟨c, h', h⟩
      · subst h'; exact Or.inr h

theorem cdistSums_eq (n : Nat) (curr bg : Nat → Nat) :
    cdistSums n curr bg
      = { curr_sqr := (∑ c in Finset.range n, curr c * curr c) % SIZE_MOD
          bg_sqr := (∑ c in Finset.range n, bg c * bg c) % SIZE_MOD
          mix := (∑ c in Finset.range n, curr c * bg c) % SIZE_MOD } := by
  unfold cdistSums
  induction n with
  | zero => simp [SIZE_MOD]
  | succ n ih =>
    rw [List.range_succ, List.foldl_append, ih]
    simp [Finset.sum_range_succ, Nat.mod_add_mod]

theorem cdistNullDist_eq (n : Nat) (curr : Nat → Nat) :
    cdistNullDist n curr = (∑ c in Finset.range n, curr c) % SIZE_MOD := by
  unfold cdistNullDist
  exact foldl_add_mod _ _

theorem bg_sqr_pos (n : Nat) (bg : Nat → Nat) (hfit : n * 65025 < 2 ^ 64)
    (hb : ∀ c, c < n → bg c < 256) (hex : ∃ c, c < n ∧ 0 < bg c) :
    0 < (∑ c in Finset.range n, bg c * bg c) % SIZE_MOD := by
  have hle : ∑ c in Finset.range n, bg c * bg c ≤ n * 65025 :=
    sum_le_mul _ 65025 n (fun c hc => by
      have h := hb c hc
      have : bg c * bg c ≤ 255 * 255 := Nat.mul_le_mul (by omega) (by omega)
      omega)
  rw [Nat.mod_eq_of_lt (by unfold SIZE_MOD; omega)]
  obtain ⟨c, hc, hpos⟩ := hex
  have h1 : bg c * bg c ≤ ∑ c in Finset.range n, bg c * bg c :=
    Finset.single_le_sum (f := fun c => bg c * bg c) (fun _ _ => Nat.zero_le _)
      (Finset.mem_range.mpr hc)
  have h2 : 0 < bg c * bg c := Nat.mul_pos hpos hpos
  omega

theorem cdistPath_division (n : Nat) (curr bg : Nat → Nat) (hn : 1 ≤ n)
    (hfit : n * 65025 < 2 ^ 64) (hb : ∀ c, c < n → bg c < 256) (s : CdistSums)
    (hs : cdistPath n curr bg = CdistPath.division s) :
    (∃ c, c < n ∧ 0 < bg c) ∧ 0 < s.bg_sqr := by
  unfold cdistPath at hs
  simp only [] at hs
  split at hs
  · cases hs
  · split at hs
    · cases hs
    · rename_i _ hbg
      have hex : ∃ c, c < n ∧ 0 < bg c := by
        rw [← cdistFlags_nonNullBG curr bg n hn]
        simpa using hbg
      injection hs with hs
      subst hs
      rw [cdistSums_eq]
      exact ⟨hex, bg_sqr_pos n bg hfit hb hex⟩

theorem cdistVec_returns (fsqrt : Nat → Nat) (n : Nat) (curr bg : Nat → Nat)
    (hn : 1 ≤ n) (hfit : n * 65025 < 2 ^ 64) (hb : ∀ c, c < n → bg c < 256) :
    ∃ v, cdistVec fsqrt n curr bg = Outcome.ret v := by
  unfold cdistVec
  cases hp : cdistPath n curr bg with
  | earlyZero => exact ⟨_, rfl⟩
  | nullBackground d => exact ⟨_, rfl⟩
  | division s =>
    have hpos := (cdistPath_division n curr bg hn hfit hb s hp).2
    simp only []
    rw [if_neg (by omega)]
    exact ⟨_, rfl⟩

/-- Claim C7. For `nChannels` in 1..4 the runtime-dispatched `L1dist` and `L2sqrdist` return
what the fixed-channel `L1dist<nChannels>` and `L2sqrdist<nChannels>` return on the same
arguments, and for `nChannels` in 2..4 the runtime-dispatched `cdist` returns what
`cdist<nChannels>` returns: for these channel counts the `default: return 0` branch is not the
one taken. -/
theorem dyn_eq_fixed (fsqrt : Nat → Nat) (a b : Nat → Nat) (nElements nChannels : Nat)
    (m : Option (Nat → Nat)) (h1 : 1 ≤ nChannels) (h4 : nChannels ≤ 4) :
    L1distDyn a b nElements nChannels m = L1distElems nChannels a b nElements m ∧
    L2sqrdistDyn a b nElements nChannels m = L2sqrdistElems nChannels a b nElements m ∧
    (2 ≤ nChannels →
      cdistDyn fsqrt a b nElements nChannels m = cdistElems fsqrt nChannels a b nElements m) := by
  interval_cases nChannels <;> simp [L1distDyn, L2sqrdistDyn, cdistDyn]

theorem dyn_eq_fixed_witness :
    (1 ≤ 2 ∧ 2 ≤ 4) ∧
    (L1distDyn exP exQ 2 2 (some exMask) = L1distElems 2 exP exQ 2 (some exMask) ∧
      L2sqrdistDyn exP exQ 2 2 (some exMask) = L2sqrdistElems 2 exP exQ 2 (some exMask) ∧
      (2 ≤ 2 →
        cdistDyn Nat.sqrt exP exQ 2 2 (some exMask)
          = cdistElems Nat.sqrt 2 exP exQ 2 (some exMask))) :=
  ⟨⟨by decide, by decide⟩,
    dyn_eq_fixed Nat.sqrt exP exQ 2 2 (some exMask) (by decide) (by decide)⟩

/-! ## Sums over the elements -/

theorem L1distVec_window (n : Nat) (a b : Nat → Nat) (hfit : n * 255 < 2 ^ 64)
    (ha : ∀ c, c < n → a c < 256) (hb : ∀ c, c < n → b c < 256) :
    ((L1distVec n a b : Nat) : Int)
      = ∑ c in Finset.range n, |(a c : Int) - (b c : Int)| := by
  unfold L1distVec
  rw [foldl_add_mod]
  have hle : ∑ c in Finset.range n, L1dist (a c) (b c) ≤ n * 255 :=
    sum_le_mul (fun c => L1dist (a c) (b c)) 255 n
      (fun c hc => (L1dist_uchar _ _ (ha c hc) (hb c hc)).2)
  rw [Nat.mod_eq_of_lt (by unfold SIZE_MOD; omega)]
  push_cast
  refine Finset.sum_congr rfl (fun c hc => ?_)
  have hc' := Finset.mem_range.mp hc
  rw [(L1dist_uchar _ _ (ha c hc') (hb c hc')).1]
  simp

theorem L2sqrdistVec_window (n : Nat) (a b : Nat → Nat) (hfit : n * 65025 < 2 ^ 64)
    (ha : ∀ c, c < n → a c < 256) (hb : ∀ c, c < n → b c < 256) :
    ((L2sqrdistVec n a b : Nat) : Int)
      = ∑ c in Finset.range n, ((a c : Int) - (b c : Int)) ^ 2 := by
  unfold L2sqrdistVec
  rw [foldl_add_mod]
  have hle : ∑ c in Finset.range n, L2sqrdist (a c) (b c) ≤ n * 65025 :=
    sum_le_mul (fun c => L2sqrdist (a c) (b c)) 65025 n
      (fun c hc => (L2sqrdist_uchar _ _ (ha c hc) (hb c hc)).2)
  rw [Nat.mod_eq_of_lt (by unfold SIZE_MOD; omega)]
  push_cast
  refine Finset.sum_congr rfl (fun c hc => ?_)
  have hc' := Finset.mem_range.mp hc
  rw [(L2sqrdist_uchar _ _ (ha c hc') (hb c hc')).1, (L1dist_uchar _ _ (ha c hc') (hb c hc')).1]
  push_cast
  rw [sq_abs]

/-- Claim C8. For arrays `a`, `b` of `E*n` 8-bit values and a mask `m`, the multi-element
`L1dist<n>(a,b,E,m)` and `L2sqrdist<n>(a,b,E,m)` return the sum, over exactly the elements
`i < E` with `m[i] != 0`, of the per-element distance between `a[i*n .. i*n+n-1]` and
`b[i*n .. i*n+n-1]`, which is the sum over `c < n` of `|a[i*n+c] - b[i*n+c]|`, resp. of its
square; without a mask they return the sum over all `E` elements, which is also the result for
a mask without a zero byte, and a mask of zero bytes gives 0 (the arrays are small enough for
the sums to fit `size_t`: `E * n * 65025 < 2^64`). -/
theorem elems_eq_masked_sum (n E : Nat) (a b m : Nat → Nat)
    (hfit : E * n * 65025 < 2 ^ 64)
    (ha : ∀ k, k < E * n → a k < 256) (hb : ∀ k, k < E * n → b k < 256) :
    (L1distElems n a b E (some m)
        = Outcome.ret (∑ i in (Finset.range E).filter (fun i => m i ≠ 0),
            L1distVec n (fun c => a (i * n + c)) (fun c => b (i * n + c))) ∧
      L1distElems n a b E none
        = Outcome.ret (∑ i in Finset.range E,
            L1distVec n (fun c => a (i * n + c)) (fun c => b (i * n + c))) ∧
      (∀ i, i < E →
        ((L1distVec n (fun c => a (i * n + c)) (fun c => b (i * n + c)) : Nat) : Int)
          = ∑ c in Finset.range n, |(a (i * n + c) : Int) - (b (i * n + c) : Int)|) ∧
      ((∀ i, i < E → m i ≠ 0) → L1distElems n a b E (some m) = L1distElems n a b E none) ∧
      ((∀ i, i < E → m i = 0) → L1distElems n a b E (some m) = Outcome.ret 0)) ∧
    (L2sqrdistElems n a b E (some m)
        = Outcome.ret (∑ i in (Finset.range E).filter (fun i => m i ≠ 0),
            L2sqrdistVec n (fun c => a (i * n + c)) (fun c => b (i * n + c))) ∧
      L2sqrdistElems n a b E none
        = Outcome.ret (∑ i in Finset.range E,
            L2sqrdistVec n (fun c => a (i * n + c)) (fun c => b (i * n + c))) ∧
      (∀ i, i < E →
        ((L2sqrdistVec n (fun c => a (i * n + c)) (fun c => b (i * n + c)) : Nat) : Int)
          = ∑ c in Finset.range n, ((a (i * n + c) : Int) - (b (i * n + c) : Int)) ^ 2) ∧
      ((∀ i, i < E → m i ≠ 0) →
        L2sqrdistElems n a b E (some m) = L2sqrdistElems n a b E none) ∧
      ((∀ i, i < E → m i = 0) → L2sqrdistElems n a b E (some m) = Outcome.ret 0)) := by
  have hall : ∀ (f : Nat → Nat), (∀ i, i < E → m i ≠ 0) →
      ∑ i in (Finset.range E).filter (fun i => m i ≠ 0), f i = ∑ i in Finset.range E, f i := by
    intro f h
    rw [Finset.filter_true_of_mem (fun i hi => h i (Finset.mem_range.mp hi))]
  have hnone : ∀ (f : Nat → Nat), (∀ i, i < E → m i = 0) →
      ∑ i in (Finset.range E).filter (fun i => m i ≠ 0), f i = 0 := by
    intro f h
    rw [Finset.filter_false_of_mem (fun i hi => by simp [h i (Finset.mem_range.mp hi)])]
    rfl
  have hwin : ∀ (f : Nat → Nat) (i : Nat), offset f (i * n) = fun c => f (i * n + c) :=
    fun _ _ => rfl
  have hn1 : ∀ i, i < E → n * 65025 < 2 ^ 64 := by
    intro i hi
    have h1 : 1 * (n * 65025) ≤ E * (n * 65025) := Nat.mul_le_mul_right _ (by omega)
    rw [Nat.one_mul, ← Nat.mul_assoc] at h1
    omega
  have h1 := elemsBody_spec (fun k => L1distVec n (offset a k) (offset b k)) (n * 255) n E m
    (by unfold SIZE_MOD; nlinarith) (by unfold SIZE_MOD; nlinarith)
    (fun j hj => L1distVec_le n _ _ (offset_lt n E a ha j hj) (offset_lt n E b hb j hj))
    (fun hn k => by subst hn; rfl)
  have h2 := elemsBody_spec (fun k => L2sqrdistVec n (offset a k) (offset b k)) (n * 65025) n E m
    (by unfold SIZE_MOD; nlinarith) (by unfold SIZE_MOD; nlinarith)
    (fun j hj => L2sqrdistVec_le n _ _ (offset_lt n E a ha j hj) (offset_lt n E b hb j hj))
    (fun hn k => by subst hn; rfl)
  simp only [hwin] at h1 h2
  refine ⟨⟨h1.1, h1.2, fun i hi => ?_, fun h => ?_, fun h => ?_⟩,
    ⟨h2.1, h2.2, fun i hi => ?_, fun h => ?_, fun h => ?_⟩⟩
  · exact L1distVec_window n _ _ (by have := hn1 i hi; omega)
      (offset_lt n E a ha i hi) (offset_lt n E b hb i hi)
  · unfold L1distElems; rw [h1.1, h1.2, hall _ h]
  · unfold L1distElems; rw [h1.1, hnone _ h]
  · exact L2sqrdistVec_window n _ _ (hn1 i hi)
      (offset_lt n E a ha i hi) (offset_lt n E b hb i hi)
  · unfold L2sqrdistElems; rw [h2.1, h2.2, hall _ h]
  · unfold L2sqrdistElems; rw [h2.1, hnone _ h]

theorem elems_eq_masked_sum_witness :
    (2 * 2 * 65025 < 2 ^ 64 ∧ (∀ k, k < 2 * 2 → exP k < 256) ∧
      (∀ k, k < 2 * 2 → exQ k < 256)) ∧
    (L1distElems 2 exP exQ 2 (some exMask) = Outcome.ret 60 ∧
      L1distElems 2 exP exQ 2 none = Outcome.ret 80 ∧
      L2sqrdistElems 2 exP exQ 2 (some exMask) = Outcome.ret 2000 ∧
      L2sqrdistElems 2 exP exQ 2 none = Outcome.ret 2400) ∧
    ((L1distElems 2 exP exQ 2 (some exMask)
        = Outcome.ret (∑ i in (Finset.range 2).filter (fun i => exMask i ≠ 0),
            L1distVec 2 (fun c => exP (i * 2 + c)) (fun c => exQ (i * 2 + c))) ∧
      L1distElems 2 exP exQ 2 none
        = Outcome.ret (∑ i in Finset.range 2,
            L1distVec 2 (fun c => exP (i * 2 + c)) (fun c => exQ (i * 2 + c))) ∧
      (∀ i, i < 2 →
        ((L1distVec 2 (fun c => exP (i * 2 + c)) (fun c => exQ (i * 2 + c)) : Nat) : Int)
          = ∑ c in Finset.range 2, |(exP (i * 2 + c) : Int) - (exQ (i * 2 + c) : Int)|) ∧
      ((∀ i, i < 2 → exMask i ≠ 0) →
        L1distElems 2 exP exQ 2 (some exMask) = L1distElems 2 exP exQ 2 none) ∧
      ((∀ i, i < 2 → exMask i = 0) →
        L1distElems 2 exP exQ 2 (some exMask) = Outcome.ret 0)) ∧
    (L2sqrdistElems 2 exP exQ 2 (some exMask)
        = Outcome.ret (∑ i in (Finset.range 2).filter (fun i => exMask i ≠ 0),
            L2sqrdistVec 2 (fun c => exP (i * 2 + c)) (fun c => exQ (i * 2 + c))) ∧
      L2sqrdistElems 2 exP exQ 2 none
        = Outcome.ret (∑ i in Finset.range 2,
            L2sqrdistVec 2 (fun c => exP (i * 2 + c)) (fun c => exQ (i * 2 + c))) ∧
      (∀ i, i < 2 →
        ((L2sqrdistVec 2 (fun c => exP (i * 2 + c)) (fun c => exQ (i * 2 + c)) : Nat) : Int)
          = ∑ c in Finset.range 2, ((exP (i * 2 + c) : Int) - (exQ (i * 2 + c) : Int)) ^ 2) ∧
      ((∀ i, i < 2 → exMask i ≠ 0) →
        L2sqrdistElems 2 exP exQ 2 (some exMask) = L2sqrdistElems 2 exP exQ 2 none) ∧
      ((∀ i, i < 2 → exMask i = 0) →
        L2sqrdistElems 2 exP exQ 2 (some exMask) = Outcome.ret 0))) :=
  ⟨⟨by decide, by decide, by decide⟩, ⟨by decide, by decide, by decide, by decide⟩,
    elems_eq_masked_sum 2 2 exP exQ exMask (by decide) (by decide) (by decide)⟩

/-! ## Colour distortion: the division and the null background -/

/-- Claim C9. In the integer `cdist<n>(curr,bg)` with 8-bit channels and `n` in 2..4, execution
reaches the division by `bg_sqr` only with a background that has a positive channel, and then
`bg_sqr > 0`; an all-zero background returns before the division; so the division is never a
division by zero. -/
theorem cdist_division_by_positive (fsqrt : Nat → Nat) (n : Nat) (curr bg : Nat → Nat)
    (h2 : 2 ≤ n) (h4 : n ≤ 4) (hb : ∀ c, c < n → bg c < 256) :
    (∀ s, cdistPath n curr bg = CdistPath.division s →
        (∃ c, c < n ∧ 0 < bg c) ∧ 0 < s.bg_sqr) ∧
    ((∀ c, c < n → bg c = 0) → ∀ s, cdistPath n curr bg ≠ CdistPath.division s) ∧
    cdistVec fsqrt n curr bg ≠ Outcome.divByZero := by
  have hkey := cdistPath_division n curr bg (by omega) (by omega) hb
  refine ⟨hkey, ?_, ?_⟩
  · intro hz s hs
    obtain ⟨⟨c, hc', hpos⟩, _⟩ := hkey s hs
    have := hz c hc'
    omega
  · obtain ⟨v, hv⟩ := cdistVec_returns fsqrt n curr bg (by omega) (by omega) hb
    rw [hv]
    simp

theorem cdist_division_by_positive_witness :
    (2 ≤ 3 ∧ 3 ≤ 4 ∧ (∀ c, c < 3 → exBg c < 256)) ∧
    ((∀ s, cdistPath 3 exCurr exBg = CdistPath.division s →
        (∃ c, c < 3 ∧ 0 < exBg c) ∧ 0 < s.bg_sqr) ∧
      ((∀ c, c < 3 → exBg c = 0) → ∀ s, cdistPath 3 exCurr exBg ≠ CdistPath.division s) ∧
      cdistVec Nat.sqrt 3 exCurr exBg ≠ Outcome.divByZero) :=
  ⟨⟨by decide, by decide, by decide⟩,
    cdist_division_by_positive Nat.sqrt 3 exCurr exBg (by decide) (by decide) (by decide)⟩

theorem sizeT_promoted : sizeT.promoted = sizeT := by
  decide

theorem L1distDiff_sizeT (p q : Nat) (hp : p < 2 ^ 31) :
    L1distDiff sizeT p q = ((p : Int) - (q : Int)) % 2 ^ 64 := by
  unfold L1distDiff
  rw [sizeT_promoted, castInt_of_small _ (by omega) (by omega)]
  simp [IntType.cast, sizeT]

theorem L1distT_sizeT (p q : Nat) (hp : p < 2 ^ 31) (hq : q < 2 ^ 31) :
    ((L1distT sizeT p q : Nat) : Int) = |(p : Int) - (q : Int)| := by
  unfold L1distT
  rw [L1distDiff_sizeT p q hp]
  have h1 : castInt (((p : Int) - (q : Int)) % 2 ^ 64) = (p : Int) - (q : Int) := by
    unfold castInt
    omega
  have h2 : |(p : Int) - (q : Int)| < 2 ^ 31 := by
    rw [abs_lt]
    constructor <;> omega
  have h3 : 0 ≤ |(p : Int) - (q : Int)| := abs_nonneg _
  rw [h1, castInt_of_small _ h3 h2]
  have h4 : |(p : Int) - (q : Int)| % (SIZE_MOD : Int) = |(p : Int) - (q : Int)| := by
    apply Int.emod_eq_of_lt h3
    unfold SIZE_MOD
    push_cast
    omega
  rw [h4, Int.toNat_of_nonneg h3]

theorem popcount_le (T : IntType) (x : Int) : popcount T x ≤ T.size * 8 := by
  rw [popcount_eq_sum]
  exact le_trans (Nat.mod_le _ _) (bitCount_le _ _)

theorem popcountVec_le (n : Nat) (T : IntType) (x : Nat → Int) :
    popcountVec n T x ≤ n * (T.size * 8) := by
  rw [popcountVec_eq_sum]
  exact le_trans (Nat.mod_le _ _) (sum_le_mul _ _ n (fun c _ => bitCount_le _ _))

/-- Claim C11 (as stated, refuted). On the values 0 and 1 of a 1-byte type the population counts
are 0 and 1, and the subtraction `(int)a-b` of `L1dist`, done in `size_t`, gives `2^64 - 1`:
it wraps around. -/
theorem gdist_subtraction_wraps :
    popcount { size := 1, isSigned := false } 0 = 0 ∧
    popcount { size := 1, isSigned := false } 1 = 1 ∧
    L1distDiff sizeT (popcount { size := 1, isSigned := false } 0)
      (popcount { size := 1, isSigned := false } 1) = 2 ^ 64 - 1 ∧
    L1distDiff sizeT (popcount { size := 1, isSigned := false } 0)
      (popcount { size := 1, isSigned := false } 1) ≠ 0 - 1 := by
  decide

/-- Claim C11 (amended). For values `a`, `b` of an N-byte integer type (N at most 8),
`gdist(a,b)` is `|popcount(a) - popcount(b)|`; the subtraction inside `L1dist` is done in
`size_t` and wraps around (to `2^64 - (popcount(b) - popcount(a))`) whenever
`popcount(a) < popcount(b)`, the conversion to `int` made by `abs` recovering the signed
difference; and the n-channel `gdist<n>` is `|popcount<n>(a) - popcount<n>(b)|` (for
`n * 64 < 2^31`). -/
theorem gdist_eq_abs_popcount_diff (T : IntType) (a b : Int) (n : Nat) (va vb : Nat → Int)
    (hN : T.size ≤ 8) (hn : n * 64 < 2 ^ 31) :
    ((gdist T a b : Nat) : Int) = |(popcount T a : Int) - (popcount T b : Int)| ∧
    (popcount T a < popcount T b →
      L1distDiff sizeT (popcount T a) (popcount T b)
        = 2 ^ 64 - ((popcount T b : Int) - (popcount T a : Int))) ∧
    ((gdistVec n T va vb : Nat) : Int)
      = |(popcountVec n T va : Int) - (popcountVec n T vb : Int)| := by
  have ha := popcount_le T a
  have hb := popcount_le T b
  have hva := popcountVec_le n T va
  have hvb := popcountVec_le n T vb
  have h64 : n * (T.size * 8) ≤ n * 64 := Nat.mul_le_mul_left n (by omega)
  refine ⟨L1distT_sizeT _ _ (by omega) (by omega), fun hlt => ?_,
    L1distT_sizeT _ _ (by omega) (by omega)⟩
  rw [L1distDiff_sizeT _ _ (by omega)]
  omega

theorem gdist_eq_abs_popcount_diff_witness :
    ((2 : Nat) ≤ 8 ∧ 2 * 64 < 2 ^ 31) ∧
    (((gdist { size := 2, isSigned := false } 3 255 : Nat) : Int)
        = |(popcount { size := 2, isSigned := false } 3 : Int)
            - (popcount { size := 2, isSigned := false } 255 : Int)| ∧
      (popcount { size := 2, isSigned := false } 3 < popcount { size := 2, isSigned := false } 255 →
        L1distDiff sizeT (popcount { size := 2, isSigned := false } 3)
            (popcount { size := 2, isSigned := false } 255)
          = 2 ^ 64 - ((popcount { size := 2, isSigned := false } 255 : Int)
              - (popcount { size := 2, isSigned := false } 3 : Int))) ∧
      ((gdistVec 2 { size := 2, isSigned := false } (fun _ => 3) (fun _ => 255) : Nat) : Int)
        = |(popcountVec 2 { size := 2, isSigned := false } (fun _ => 3) : Int)
            - (popcountVec 2 { size := 2, isSigned := false } (fun _ => 255) : Int)|) :=
  ⟨⟨by decide, by decide⟩,
    gdist_eq_abs_popcount_diff { size := 2, isSigned := false } 3 255 2 (fun _ => 3)
      (fun _ => 255) (by decide) (by decide)⟩

theorem L1distT_narrow (T : IntType) (a b : Int) (hN1 : 1 ≤ T.size) (hN : T.size < 4)
    (ha : T.inRange a) (hb : T.inRange b) :
    ((L1distT T a b : Nat) : Int) = |a - b| := by
  have hP : T.promoted = { size := 4, isSigned := true } := by
    unfold IntType.promoted
    rw [if_pos hN]
  have hbound : -(2 ^ 24 : Int) ≤ a ∧ a < 2 ^ 24 ∧ -(2 ^ 24 : Int) ≤ b ∧ b < 2 ^ 24 := by
    unfold IntType.inRange at ha hb
    have hs : T.size = 1 ∨ T.size = 2 ∨ T.size = 3 := by omega
    rcases hs with h | h | h <;> rw [h] at ha hb <;> split at ha <;> split at hb <;>
      norm_num at ha hb <;> omega
  obtain ⟨ha1, ha2, hb1, hb2⟩ := hbound
  have h2 : |a - b| < 2 ^ 31 := by
    rw [abs_lt]
    constructor <;> omega
  have h3 : 0 ≤ |a - b| := abs_nonneg _
  have hca : castInt a = a := by unfold castInt; omega
  have hd : L1distDiff T a b = a - b := by
    unfold L1distDiff
    rw [hP, hca]
    simp only [IntType.cast, if_true]
    norm_num
    omega
  have hcd : castInt (a - b) = a - b := by unfold castInt; omega
  unfold L1distT
  rw [hd, hcd, castInt_of_small _ h3 h2]
  have h4 : |a - b| % (SIZE_MOD : Int) = |a - b| := by
    apply Int.emod_eq_of_lt h3
    unfold SIZE_MOD
    push_cast
    omega
  rw [h4, Int.toNat_of_nonneg h3]

theorem L1distT_uchar (x y : Nat) (hx : x < 256) (hy : y < 256) :
    L1distT { size := 1, isSigned := false } x y = L1dist x y := by
  have h := L1distT_narrow { size := 1, isSigned := false } x y (by decide) (by decide)
    (by unfold IntType.inRange; simp; omega) (by unfold IntType.inRange; simp; omega)
  have h' := (L1dist_uchar x y hx hy).1
  rw [Int.abs_eq_natAbs] at h
  omega

/-- Claim C12 (failing input). At the 8-byte signed type, `L1dist(4294967296, 0)` is 0: the
cast `(int)a` truncates `2^32` to 0 before the subtraction, whereas `|a - b|` is `2^32`. -/
theorem L1dist_int64_truncates :
    IntType.inRange { size := 8, isSigned := true } 4294967296 ∧
    IntType.inRange { size := 8, isSigned := true } 0 ∧
    L1distT { size := 8, isSigned := true } 4294967296 0 = 0 ∧
    |(4294967296 : Int) - 0| = 4294967296 := by
  decide

/-! ## Colour distortion: the radicand, the distance mix, the single channel -/

theorem cdistPath_cases (n : Nat) (curr bg : Nat → Nat) :
    cdistPath n curr bg = CdistPath.earlyZero ∨
    cdistPath n curr bg = CdistPath.nullBackground (cdistNullDist n curr) ∨
    cdistPath n curr bg = CdistPath.division (cdistSums n curr bg) := by
  unfold cdistPath
  simp only []
  split
  · exact Or.inl rfl
  · split
    · exact Or.inr (Or.inl rfl)
    · exact Or.inr (Or.inr rfl)

theorem sum_sq_le (n : Nat) (f g : Nat → Nat)
    (hf : ∀ c, c < n → f c < 256) (hg : ∀ c, c < n → g c < 256) :
    ∑ c in Finset.range n, f c * g c ≤ n * 65025 :=
  sum_le_mul _ 65025 n (fun c hc => by
    have h1 := hf c hc
    have h2 := hg c hc
    have : f c * g c ≤ 255 * 255 := Nat.mul_le_mul (by omega) (by omega)
    omega)

theorem cauchy_schwarz_nat (n : Nat) (f g : Nat → Nat) :
    (∑ c in Finset.range n, f c * g c) * (∑ c in Finset.range n, f c * g c)
      ≤ (∑ c in Finset.range n, f c * f c) * (∑ c in Finset.range n, g c * g c) := by
  have h := Finset.sum_mul_sq_le_sq_mul_sq (Finset.range n) f g
  simpa [sq] using h

/-- Claim C19. In the integer `cdist<n>(curr,bg)` with 8-bit channels and `n` in 2..4, whenever
the division is reached the accumulators are the true sums, `floor(mix^2 / bg_sqr) <= curr_sqr`
(Cauchy-Schwarz), the `size_t` subtraction `curr_sqr - (mix*mix)/bg_sqr` does not wrap, and the
value passed to the square root is that non-negative difference. -/
theorem cdist_radicand_no_wrap (fsqrt : Nat → Nat) (n : Nat) (curr bg : Nat → Nat)
    (h2 : 2 ≤ n) (h4 : n ≤ 4)
    (hc : ∀ c, c < n → curr c < 256) (hb : ∀ c, c < n → bg c < 256)
    (s : CdistSums) (hs : cdistPath n curr bg = CdistPath.division s) :
    (s.curr_sqr = ∑ c in Finset.range n, curr c * curr c ∧
      s.bg_sqr = ∑ c in Finset.range n, bg c * bg c ∧
      s.mix = ∑ c in Finset.range n, curr c * bg c) ∧
    s.mix * s.mix / s.bg_sqr ≤ s.curr_sqr ∧
    (s.curr_sqr + SIZE_MOD - (s.mix * s.mix) % SIZE_MOD / s.bg_sqr) % SIZE_MOD
      = s.curr_sqr - s.mix * s.mix / s.bg_sqr ∧
    cdistVec fsqrt n curr bg
      = Outcome.ret (fsqrt (s.curr_sqr - s.mix * s.mix / s.bg_sqr)) := by
  have hpos := (cdistPath_division n curr bg (by omega) (by omega) hb s hs).2
  have hsum : s = cdistSums n curr bg := by
    rcases cdistPath_cases n curr bg with h | h | h
    · rw [h] at hs; cases hs
    · rw [h] at hs; cases hs
    · rw [h] at hs; injection hs with hs; exact hs.symm
  have h1 := sum_sq_le n curr curr hc hc
  have h2' := sum_sq_le n bg bg hb hb
  have h3 := sum_sq_le n curr bg hc hb
  have hM : SIZE_MOD = 2 ^ 64 := rfl
  have e1 : s.curr_sqr = ∑ c in Finset.range n, curr c * curr c := by
    rw [hsum, cdistSums_eq]
    exact Nat.mod_eq_of_lt (by omega)
  have e2 : s.bg_sqr = ∑ c in Finset.range n, bg c * bg c := by
    rw [hsum, cdistSums_eq]
    exact Nat.mod_eq_of_lt (by omega)
  have e3 : s.mix = ∑ c in Finset.range n, curr c * bg c := by
    rw [hsum, cdistSums_eq]
    exact Nat.mod_eq_of_lt (by omega)
  have hcs : s.mix * s.mix ≤ s.bg_sqr * s.curr_sqr := by
    rw [e1, e2, e3, Nat.mul_comm (∑ c in Finset.range n, bg c * bg c)]
    exact cauchy_schwarz_nat n curr bg
  have hq : s.mix * s.mix / s.bg_sqr ≤ s.curr_sqr := Nat.div_le_of_le_mul hcs
  have hmix : s.mix ≤ 4 * 65025 := by omega
  have hmm : s.mix * s.mix ≤ (4 * 65025) * (4 * 65025) := Nat.mul_le_mul hmix hmix
  have hmod : (s.mix * s.mix) % SIZE_MOD = s.mix * s.mix :=
    Nat.mod_eq_of_lt (by omega)
  have hcur : s.curr_sqr ≤ 4 * 65025 := by omega
  have hrad : (s.curr_sqr + SIZE_MOD - (s.mix * s.mix) % SIZE_MOD / s.bg_sqr) % SIZE_MOD
      = s.curr_sqr - s.mix * s.mix / s.bg_sqr := by
    rw [hmod, hM]
    generalize s.mix * s.mix / s.bg_sqr = q at hq
    omega
  refine ⟨⟨e1, e2, e3⟩, hq, hrad, ?_⟩
  unfold cdistVec
  rw [hs]
  simp only []
  rw [if_neg (by omega), hrad]

theorem cdist_radicand_no_wrap_witness :
    (2 ≤ 3 ∧ 3 ≤ 4 ∧ (∀ c, c < 3 → exCurr c < 256) ∧ (∀ c, c < 3 → exBg c < 256) ∧
      cdistPath 3 exCurr exBg
        = CdistPath.division { curr_sqr := 14, bg_sqr := 1400, mix := 100 }) ∧
    ((14 = ∑ c in Finset.range 3, exCurr c * exCurr c ∧
        1400 = ∑ c in Finset.range 3, exBg c * exBg c ∧
        100 = ∑ c in Finset.range 3, exCurr c * exBg c) ∧
      100 * 100 / 1400 ≤ 14 ∧
      (14 + SIZE_MOD - (100 * 100) % SIZE_MOD / 1400) % SIZE_MOD = 14 - 100 * 100 / 1400 ∧
      cdistVec Nat.sqrt 3 exCurr exBg = Outcome.ret (Nat.sqrt (14 - 100 * 100 / 1400))) :=
  ⟨⟨by decide, by decide, by decide, by decide, by decide⟩,
    cdist_radicand_no_wrap Nat.sqrt 3 exCurr exBg (by decide) (by decide) (by decide)
      (by decide) { curr_sqr := 14, bg_sqr := 1400, mix := 100 } (by decide)⟩

theorem L1distVec_self (n : Nat) (v : Nat → Nat) (hv : ∀ c, c < n → v c < 256) :
    L1distVec n v v = 0 := by
  unfold L1distVec
  rw [foldl_add_mod]
  have hz : ∑ c in Finset.range n, L1dist (v c) (v c) = 0 := by
    apply Finset.sum_eq_zero
    intro c hc
    have h := (L1dist_uchar (v c) (v c) (hv c (Finset.mem_range.mp hc))
      (hv c (Finset.mem_range.mp hc))).1
    omega
  rw [hz]
  rfl

theorem cdistVec_self (fsqrt : Nat → Nat) (n : Nat) (v : Nat → Nat) (hn : 1 ≤ n) :
    cdistVec fsqrt n v v = Outcome.ret 0 := by
  have hd : (cdistFlags n v v).bNonNullDist = false := by
    rw [Bool.eq_false_iff, Ne, cdistFlags_nonNullDist v v n hn]
    rintro ⟨c, _, h⟩
    exact h rfl
  unfold cdistVec cdistPath
  simp [hd]

theorem cdistVec_returns_bounded (fsqrt : Nat → Nat) (n : Nat) (curr bg : Nat → Nat)
    (h2 : 2 ≤ n) (h4 : n ≤ 4)
    (hc : ∀ c, c < n → curr c < 256) (hb : ∀ c, c < n → bg c < 256)
    (hsqrt : ∀ x, x < 2 ^ 64 → fsqrt x ≤ 2 ^ 32) :
    ∃ d, cdistVec fsqrt n curr bg = Outcome.ret d ∧ d ≤ 2 ^ 32 := by
  have hM : SIZE_MOD = 2 ^ 64 := rfl
  unfold cdistVec
  rcases cdistPath_cases n curr bg with h | h | h
  · rw [h]
    exact ⟨0, rfl, by omega⟩
  · rw [h]
    refine ⟨_, rfl, ?_⟩
    rw [cdistNullDist_eq]
    have hle : ∑ c in Finset.range n, curr c ≤ n * 255 :=
      sum_le_mul _ 255 n (fun c hc' => by have := hc c hc'; omega)
    exact le_trans (Nat.mod_le _ _) (by omega)
  · have hpos := (cdistPath_division n curr bg (by omega) (by omega) hb _ h).2
    rw [h]
    simp only []
    rw [if_neg (by omega)]
    exact ⟨_, rfl, hsqrt _ (by rw [← hM]; exact Nat.mod_lt _ (by rw [hM]; norm_num))⟩

/-- Claim C13. For n-channel 8-bit arrays `curr`, `bg` (`n` in 2..4), the integer
`cmixdist<n>(curr,bg)` is `floor(L1dist<n>(curr,bg) / 2) + 4 * cdist<n>(curr,bg)`, and
`cmixdist<n>(v,v) = 0` for every `v` (the square root of a `float` converted from a `size_t`
is at most `2^32`). -/
theorem cmixdistVec_eq (fsqrt : Nat → Nat) (n : Nat) (curr bg : Nat → Nat)
    (h2 : 2 ≤ n) (h4 : n ≤ 4)
    (hc : ∀ c, c < n → curr c < 256) (hb : ∀ c, c < n → bg c < 256)
    (hsqrt : ∀ x, x < 2 ^ 64 → fsqrt x ≤ 2 ^ 32) :
    (∃ d, cdistVec fsqrt n curr bg = Outcome.ret d ∧
      cmixdistVec fsqrt n curr bg = Outcome.ret (L1distVec n curr bg / 2 + 4 * d)) ∧
    cmixdistVec fsqrt n curr curr = Outcome.ret 0 := by
  have hM : SIZE_MOD = 2 ^ 64 := rfl
  constructor
  · obtain ⟨d, hd, hle⟩ := cdistVec_returns_bounded fsqrt n curr bg h2 h4 hc hb hsqrt
    refine ⟨d, hd, ?_⟩
    have hl := L1distVec_le n curr bg hc hb
    unfold cmixdistVec cmixdist
    rw [hd]
    simp only [Outcome.andThen]
    congr 1
    rw [hM]
    omega
  · unfold cmixdistVec
    rw [cdistVec_self fsqrt n curr (by omega), L1distVec_self n curr hc]
    rfl

theorem cmixdistVec_eq_witness :
    (2 ≤ 3 ∧ 3 ≤ 4 ∧ (∀ c, c < 3 → exCurr c < 256) ∧ (∀ c, c < 3 → exBg c < 256) ∧
      (∀ x, x < 2 ^ 64 → Nat.sqrt x ≤ 2 ^ 32)) ∧
    ((∃ d, cdistVec Nat.sqrt 3 exCurr exBg = Outcome.ret d ∧
        cmixdistVec Nat.sqrt 3 exCurr exBg
          = Outcome.ret (L1distVec 3 exCurr exBg / 2 + 4 * d)) ∧
      cmixdistVec Nat.sqrt 3 exCurr exCurr = Outcome.ret 0) :=
  have hsqrt : ∀ x, x < 2 ^ 64 → Nat.sqrt x ≤ 2 ^ 32 := fun x hx =>
    Nat.le_of_lt_succ (Nat.sqrt_lt'.mpr (lt_of_lt_of_le hx (by norm_num)))
  ⟨⟨by decide, by decide, by decide, by decide, hsqrt⟩,
    cmixdistVec_eq Nat.sqrt 3 exCurr exBg (by decide) (by decide) (by decide) (by decide)
      hsqrt⟩

/-- Claim C20. The runtime-dispatched `cdist(a,b,nElements,nChannels,m)` called with
`nChannels = 1` passes the assertion, takes the `default` branch of the switch and returns 0,
for every `a`, `b`, `nElements` and mask. -/
theorem cdistDyn_one_channel (fsqrt : Nat → Nat) (a b : Nat → Nat) (nElements : Nat)
    (m : Option (Nat → Nat)) :
    cdistDyn fsqrt a b nElements 1 m = Outcome.ret 0 ∧
    cdistDyn fsqrt a b nElements 1 m ≠ Outcome.assertFailed := by
  simp [cdistDyn]

end DistanceUtils

namespace StereoSegmMatcher

open DistanceUtils (IntType)

/-! ## Label values -/

theorem dontCare_value : s_nDontCareLabel = -2147483648 := by
  decide

theorem occluded_value : s_nOccludedLabel = 2147483647 := by
  decide

theorem foreground_value : s_nForegroundLabel = 255 := by
  decide

theorem background_value : s_nBackgroundLabel = 0 := by
  decide

theorem outputLabel_inRange (v : Int) :
    OutputLabelType.inRange v ↔ -2147483648 ≤ v ∧ v ≤ 2147483647 := by
  unfold IntType.inRange OutputLabelType
  norm_num
  omega

theorem outputLabel_cast (v : Int) :
    OutputLabelType.cast v = (v + 2147483648) % 4294967296 - 2147483648 := by
  simp only [IntType.cast, OutputLabelType, if_true]
  norm_num

theorem dispLabel_of_lt (d : Nat) (hd : (d : Int) < 2 ^ 31 - 1) : dispLabel d = (d : Int) := by
  have h31 : (2 : Int) ^ 31 = 2147483648 := by norm_num
  rw [h31] at hd
  unfold dispLabel
  rw [outputLabel_cast]
  omega

/-- Claim C14. The dont-care output label is the minimum value of the 32-bit signed output label
type and the occluded label is its maximum value; the two are distinct, and the output label of
a disparity offset `d` with `0 <= d < 2^31 - 1` is `d` itself and is neither of them. -/
theorem sentinel_labels_extreme :
    (OutputLabelType.inRange s_nDontCareLabel ∧ OutputLabelType.inRange s_nOccludedLabel ∧
      ∀ v, OutputLabelType.inRange v → s_nDontCareLabel ≤ v ∧ v ≤ s_nOccludedLabel) ∧
    s_nDontCareLabel ≠ s_nOccludedLabel ∧
    ∀ d : Nat, (d : Int) < 2 ^ 31 - 1 →
      dispLabel d = (d : Int) ∧ dispLabel d ≠ s_nDontCareLabel ∧
        dispLabel d ≠ s_nOccludedLabel := by
  refine ⟨⟨by decide, by decide, fun v hv => ?_⟩, by decide, fun d hd => ?_⟩
  · rw [outputLabel_inRange] at hv
    rw [dontCare_value, occluded_value]
    exact hv
  · rw [dispLabel_of_lt d hd, dontCare_value, occluded_value]
    refine ⟨rfl, ?_, ?_⟩ <;> omega

theorem sentinel_labels_extreme_witness :
    ((64 : Nat) : Int) < 2 ^ 31 - 1 ∧
    (dispLabel 64 = ((64 : Nat) : Int) ∧ dispLabel 64 ≠ s_nDontCareLabel ∧
      dispLabel 64 ≠ s_nOccludedLabel) :=
  ⟨by norm_num, sentinel_labels_extreme.2.2 64 (by norm_num)⟩

/-- Claim C15 (as stated, refuted). With `nMinDispOffset = 0` and `nMaxDispOffset = 255`, the
disparity offsets 0 and 255 lie in the range and their output labels are the background and the
foreground label values. -/
theorem fgbg_labels_meet_disparities :
    ((0 : Nat) ≤ 0 ∧ (0 : Nat) ≤ 255 ∧ (0 : Nat) ≤ 255 ∧ (255 : Nat) ≤ 255) ∧
    dispLabel 0 = s_nBackgroundLabel ∧ dispLabel 255 = s_nForegroundLabel := by
  decide

/-- Claim C15 (amended). The foreground and background output label values are 255 and 0; they
are distinct from each other and from the dont-care and occluded labels; the output label of a
disparity offset `d < 2^31 - 1` differs from both exactly when `d` is neither 0 nor 255. -/
theorem fgbg_labels_values :
    (s_nForegroundLabel = 255 ∧ s_nBackgroundLabel = 0) ∧
    s_nForegroundLabel ≠ s_nBackgroundLabel ∧
    (s_nForegroundLabel ≠ s_nDontCareLabel ∧ s_nForegroundLabel ≠ s_nOccludedLabel ∧
      s_nBackgroundLabel ≠ s_nDontCareLabel ∧ s_nBackgroundLabel ≠ s_nOccludedLabel) ∧
    ∀ d : Nat, (d : Int) < 2 ^ 31 - 1 →
      ((dispLabel d ≠ s_nForegroundLabel ∧ dispLabel d ≠ s_nBackgroundLabel)
        ↔ (d ≠ 0 ∧ d ≠ 255)) := by
  refine ⟨by decide, by decide, by decide, fun d hd => ?_⟩
  rw [dispLabel_of_lt d hd, foreground_value, background_value]
  omega

theorem fgbg_labels_values_witness :
    ((64 : Nat) : Int) < 2 ^ 31 - 1 ∧
    ((dispLabel 64 ≠ s_nForegroundLabel ∧ dispLabel 64 ≠ s_nBackgroundLabel)
      ↔ ((64 : Nat) ≠ 0 ∧ (64 : Nat) ≠ 255)) :=
  ⟨by norm_num, fgbg_labels_values.2.2.2 64 (by norm_num)⟩

/-! ## The uniqueness cost relation -/

theorem roundTiesEven_bounds (k : ℚ) : ⌊k⌋ ≤ roundTiesEven k ∧ roundTiesEven k ≤ ⌊k⌋ + 1 := by
  unfold roundTiesEven
  split_ifs <;> constructor <;> omega

theorem roundTiesEven_mono {k l : ℚ} (h : k ≤ l) : roundTiesEven k ≤ roundTiesEven l := by
  rcases lt_or_eq_of_le (Int.floor_mono h) with hf | hf
  · have h1 := (roundTiesEven_bounds k).2
    have h2 := (roundTiesEven_bounds l).1
    omega
  · unfold roundTiesEven
    rw [← hf]
    have hkl : k - (⌊k⌋ : ℚ) ≤ l - (⌊k⌋ : ℚ) := by linarith
    split_ifs <;> first | omega | (exfalso; linarith)

theorem roundTiesEven_intCast (z : Int) : roundTiesEven (z : ℚ) = z := by
  unfold roundTiesEven
  simp

theorem roundTiesEven_natDiv (p q : Nat) (hq : 0 < q) :
    roundTiesEven ((p : ℚ) / (q : ℚ)) = (divRoundEven p q : Int) := by
  have hq' : (0 : ℚ) < q := by exact_mod_cast hq
  have hfl : ⌊(p : ℚ) / (q : ℚ)⌋ = ((p / q : Nat) : Int) := by
    rw [Rat.floor_natCast_div_natCast]; rfl
  have hfrac : (p : ℚ) / (q : ℚ) - ((p / q : Nat) : ℚ) = ((p % q : Nat) : ℚ) / q := by
    have := Nat.div_add_mod p q
    have h2 : (p : ℚ) = (q : ℚ) * ((p / q : Nat) : ℚ) + ((p % q : Nat) : ℚ) := by
      exact_mod_cast this.symm
    field_simp
    linarith
  have hlt : ((p % q : Nat) : ℚ) / q < 1 / 2 ↔ 2 * (p % q) < q := by
    rw [div_lt_div_iff₀ hq' (by norm_num)]
    constructor
    · intro h; have : ((p % q * 2 : Nat) : ℚ) < ((1 * q : Nat) : ℚ) := by push_cast; linarith
      have := Nat.cast_lt.mp this; omega
    · intro h; have : ((p % q * 2 : Nat) : ℚ) < ((1 * q : Nat) : ℚ) := by
        apply Nat.cast_lt.mpr; omega
      push_cast at this; linarith
  have hgt : 1 / 2 < ((p % q : Nat) : ℚ) / q ↔ q < 2 * (p % q) := by
    rw [div_lt_div_iff₀ (by norm_num) hq']
    constructor
    · intro h; have : ((1 * q : Nat) : ℚ) < ((2 * (p % q) : Nat) : ℚ) := by push_cast; linarith
      have := Nat.cast_lt.mp this; omega
    · intro h; have : ((1 * q : Nat) : ℚ) < ((2 * (p % q) : Nat) : ℚ) := by
        apply Nat.cast_lt.mpr; omega
      push_cast at this; linarith
  unfold roundTiesEven divRoundEven
  rw [hfl]
  have hc : (((p / q : Nat) : Int) : ℚ) = ((p / q : Nat) : ℚ) := by norm_cast
  rw [hc, hfrac]
  simp only [hlt, hgt]
  have hm : ((p / q : Nat) : Int) % 2 = 0 ↔ (p / q) % 2 = 0 := by omega
  simp only [hm]
  split_ifs <;> simp

theorem binary32Exp_eq {x : ℚ} (e : Int) (he : -126 ≤ e) (h1 : (2 : ℚ) ^ e ≤ |x|)
    (h2 : |x| < (2 : ℚ) ^ (e + 1)) : binary32Exp x = e := by
  have hpos : (0 : ℚ) < |x| := lt_of_lt_of_le (by positivity) h1
  have ha : e ≤ Int.log 2 |x| := (Int.zpow_le_iff_le_log (by norm_num) hpos).mp (by exact_mod_cast h1)
  have hb : Int.log 2 |x| < e + 1 := (Int.lt_zpow_iff_log_lt (by norm_num) hpos).mp (by exact_mod_cast h2)
  unfold binary32Exp
  omega

theorem roundBinary32_eval {x : ℚ} (e : Int) (he : -126 ≤ e) (h1 : (2 : ℚ) ^ e ≤ x)
    (h2 : x < (2 : ℚ) ^ (e + 1)) :
    roundBinary32 x = ((roundTiesEven (x / 2 ^ (e - 23)) : Int) : ℚ) * 2 ^ (e - 23) := by
  have hpos : (0 : ℚ) < x := lt_of_lt_of_le (by positivity) h1
  have habs : |x| = x := abs_of_pos hpos
  have hexp : binary32Exp x = e := binary32Exp_eq e he (by rw [habs]; exact h1) (by rw [habs]; exact h2)
  unfold roundBinary32
  rw [if_neg (ne_of_gt hpos), if_neg (not_lt.mpr (le_of_lt hpos)), hexp, habs]
  ring

theorem roundBinary32_natCast (k : Nat) (hk : k < 2 ^ 24) : roundBinary32 (k : ℚ) = k := by
  rcases Nat.eq_zero_or_pos k with h0 | hpos
  · subst h0; simp [roundBinary32]
  · have hk0 : k ≠ 0 := by omega
    have hl : Nat.log 2 k < 24 := Nat.log_lt_of_lt_pow hk0 hk
    have h1 : 2 ^ Nat.log 2 k ≤ k := Nat.pow_log_le_self 2 hk0
    have h2 : k < 2 ^ (Nat.log 2 k + 1) := Nat.lt_pow_succ_log_self (by norm_num) k
    obtain ⟨d, hd⟩ : ∃ d : Nat, Nat.log 2 k + d = 23 := ⟨23 - Nat.log 2 k, by omega⟩
    have hulp : (2 : ℚ) ^ (((Nat.log 2 k : Nat) : Int) - 23) = ((2 : ℚ) ^ d)⁻¹ := by
      have : ((Nat.log 2 k : Nat) : Int) - 23 = -((d : Nat) : Int) := by omega
      rw [this, zpow_neg, zpow_natCast]
    rw [roundBinary32_eval ((Nat.log 2 k : Nat) : Int) (by omega)
      (by rw [zpow_natCast]; exact_mod_cast h1)
      (by
        have : ((Nat.log 2 k : Nat) : Int) + 1 = ((Nat.log 2 k + 1 : Nat) : Int) := by push_cast; ring
        rw [this, zpow_natCast]; exact_mod_cast h2)]
    rw [hulp]
    have hint : (k : ℚ) / ((2 : ℚ) ^ d)⁻¹ = (((k * 2 ^ d : Nat) : Int) : ℚ) := by
      rw [div_inv_eq_mul]; push_cast; ring
    rw [hint, roundTiesEven_intCast]
    push_cast
    field_simp

theorem roundTiesEven_err (k : ℚ) :
    ((roundTiesEven k : Int) : ℚ) ≤ k + 1 / 2 ∧ k - 1 / 2 ≤ ((roundTiesEven k : Int) : ℚ) := by
  have h1 := Int.floor_le k
  have h2 := Int.lt_floor_add_one k
  unfold roundTiesEven
  split_ifs <;> push_cast <;> constructor <;> linarith

theorem divRoundEven_mono {p q p' q' : Nat} (hq : 0 < q) (hq' : 0 < q')
    (h : p * q' ≤ p' * q) : divRoundEven p q ≤ divRoundEven p' q' := by
  have hQ : (0 : ℚ) < q := by exact_mod_cast hq
  have hQ' : (0 : ℚ) < q' := by exact_mod_cast hq'
  have hle : (p : ℚ) / q ≤ (p' : ℚ) / q' := by
    rw [div_le_div_iff₀ hQ hQ']
    exact_mod_cast h
  have := roundTiesEven_mono hle
  rw [roundTiesEven_natDiv p q hq, roundTiesEven_natDiv p' q' hq'] at this
  exact_mod_cast this

theorem divRoundEven_lt_of_gap {p q p' q' : Nat} (hq : 0 < q) (hq' : 0 < q')
    (h : (p + q) * q' < p' * q) : divRoundEven p q < divRoundEven p' q' := by
  have hQ : (0 : ℚ) < q := by exact_mod_cast hq
  have hQ' : (0 : ℚ) < q' := by exact_mod_cast hq'
  have hlt : (p : ℚ) / q + 1 < (p' : ℚ) / q' := by
    have : (p : ℚ) / q + 1 = ((p + q : Nat) : ℚ) / q := by push_cast; field_simp
    rw [this, div_lt_div_iff₀ hQ hQ']
    exact_mod_cast h
  have h1 := (roundTiesEven_err ((p : ℚ) / q)).1
  have h2 := (roundTiesEven_err ((p' : ℚ) / q')).2
  rw [roundTiesEven_natDiv p q hq] at h1
  rw [roundTiesEven_natDiv p' q' hq'] at h2
  have h3 : (((divRoundEven p q : Nat) : Int) : ℚ) < (((divRoundEven p' q' : Nat) : Int) : ℚ) := by
    linarith
  exact_mod_cast h3

/-- Evaluation of the macro at a count whose quotient lies in `[2^e, 2^(e+1))`: the binary32
values there are the multiples of `2^(e-23)`. -/
theorem incr_rel_eval (n e : Nat) (he : e ≤ 23) (hlo : 2 ^ e * (n + 2) ≤ n * 3)
    (hhi : n * 3 < 2 ^ (e + 1) * (n + 2)) (hn : n * 3 < 2 ^ 24) :
    STEREOSEGMATCH_UNIQUE_COST_INCR_REL n
      = (divRoundEven (n * 3 * 2 ^ (23 - e)) (n + 2) : ℚ) / 2 ^ (23 - e) := by
  unfold STEREOSEGMATCH_UNIQUE_COST_INCR_REL
  rw [roundBinary32_natCast (n * 3) hn, roundBinary32_natCast (n + 2) (by omega)]
  have hq : (0 : ℚ) < ((n + 2 : Nat) : ℚ) := by positivity
  have hlo' : (2 : ℚ) ^ ((e : Nat) : Int) ≤ ((n * 3 : Nat) : ℚ) / ((n + 2 : Nat) : ℚ) := by
    rw [le_div_iff₀ hq, zpow_natCast]
    exact_mod_cast hlo
  have hhi' : ((n * 3 : Nat) : ℚ) / ((n + 2 : Nat) : ℚ) < (2 : ℚ) ^ (((e : Nat) : Int) + 1) := by
    have : ((e : Nat) : Int) + 1 = ((e + 1 : Nat) : Int) := by push_cast; ring
    rw [div_lt_iff₀ hq, this, zpow_natCast]
    exact_mod_cast hhi
  rw [roundBinary32_eval ((e : Nat) : Int) (by omega) hlo' hhi']
  have hulp : (2 : ℚ) ^ (((e : Nat) : Int) - 23) = ((2 : ℚ) ^ (23 - e))⁻¹ := by
    have : ((e : Nat) : Int) - 23 = -((23 - e : Nat) : Int) := by omega
    rw [this, zpow_neg, zpow_natCast]
  rw [hulp]
  have harg : ((n * 3 : Nat) : ℚ) / ((n + 2 : Nat) : ℚ) / ((2 : ℚ) ^ (23 - e))⁻¹
      = ((n * 3 * 2 ^ (23 - e) : Nat) : ℚ) / ((n + 2 : Nat) : ℚ) := by
    rw [div_inv_eq_mul]; push_cast; ring
  rw [harg, roundTiesEven_natDiv _ _ (by omega)]
  push_cast
  ring

theorem incr_rel_eval_ge4 (n : Nat) (h4 : 4 ≤ n) (hn : n * 3 < 2 ^ 24) :
    STEREOSEGMATCH_UNIQUE_COST_INCR_REL n
      = (divRoundEven (n * 3 * 2 ^ 22) (n + 2) : ℚ) / 2 ^ 22 :=
  incr_rel_eval n 1 (by omega) (by omega) (by omega) hn

theorem incr_rel_eval_lt4 (n : Nat) (h1 : 1 ≤ n) (h4 : n < 4) :
    STEREOSEGMATCH_UNIQUE_COST_INCR_REL n
      = (divRoundEven (n * 3 * 2 ^ 23) (n + 2) : ℚ) / 2 ^ 23 :=
  incr_rel_eval n 0 (by omega) (by omega) (by omega) (by omega)

theorem incr_rel_zero : STEREOSEGMATCH_UNIQUE_COST_INCR_REL 0 = 0 := by
  simp [STEREOSEGMATCH_UNIQUE_COST_INCR_REL, roundBinary32]

theorem divRoundEven_tail : ∀ j, j < 43 →
    divRoundEven ((5015 + j) * 3 * 2 ^ 22) (5015 + j + 2)
      < divRoundEven ((5015 + j + 1) * 3 * 2 ^ 22) (5015 + j + 1 + 2) := by
  decide

theorem incr_rel_succ (k : Nat) (hk : k < 5058) :
    STEREOSEGMATCH_UNIQUE_COST_INCR_REL k < STEREOSEGMATCH_UNIQUE_COST_INCR_REL (k + 1) := by
  rcases Nat.lt_or_ge k 4 with h4 | h4
  · have e1 := incr_rel_eval_lt4 1 (by decide) (by decide)
    have e2 := incr_rel_eval_lt4 2 (by decide) (by decide)
    have e3 := incr_rel_eval_lt4 3 (by decide) (by decide)
    have e4 := incr_rel_eval_ge4 4 (by decide) (by decide)
    have d1 : divRoundEven (1 * 3 * 2 ^ 23) (1 + 2) = 8388608 := by decide
    have d2 : divRoundEven (2 * 3 * 2 ^ 23) (2 + 2) = 12582912 := by decide
    have d3 : divRoundEven (3 * 3 * 2 ^ 23) (3 + 2) = 15099494 := by decide
    have d4 : divRoundEven (4 * 3 * 2 ^ 22) (4 + 2) = 8388608 := by decide
    rw [d1] at e1; rw [d2] at e2; rw [d3] at e3; rw [d4] at e4
    interval_cases k
    · rw [incr_rel_zero, e1]; norm_num
    · rw [e1, e2]; norm_num
    · rw [e2, e3]; norm_num
    · rw [e3, e4]; norm_num
  · rw [incr_rel_eval_ge4 k h4 (by omega), incr_rel_eval_ge4 (k + 1) (by omega) (by omega)]
    have hlt : divRoundEven (k * 3 * 2 ^ 22) (k + 2)
        < divRoundEven ((k + 1) * 3 * 2 ^ 22) (k + 1 + 2) := by
      rcases Nat.lt_or_ge k 5015 with h5 | h5
      · apply divRoundEven_lt_of_gap (by omega) (by omega)
        have hb : (k + 2) * (k + 3) ≤ 5016 * 5017 := Nat.mul_le_mul (by omega) (by omega)
        nlinarith
      · obtain ⟨j, rfl⟩ : ∃ j, k = 5015 + j := ⟨k - 5015, by omega⟩
        exact divRoundEven_tail j (by omega)
    have hc : ((divRoundEven (k * 3 * 2 ^ 22) (k + 2) : Nat) : ℚ)
        < ((divRoundEven ((k + 1) * 3 * 2 ^ 22) (k + 1 + 2) : Nat) : ℚ) := by exact_mod_cast hlt
    exact div_lt_div_of_pos_right hc (by norm_num)

theorem incr_rel_strict (n m : Nat) (hnm : n < m) (hm : m ≤ 5058) :
    STEREOSEGMATCH_UNIQUE_COST_INCR_REL n < STEREOSEGMATCH_UNIQUE_COST_INCR_REL m := by
  induction m with
  | zero => omega
  | succ m ih =>
    rcases Nat.lt_or_ge n m with h | h
    · exact lt_trans (ih h (by omega)) (incr_rel_succ m (by omega))
    · have : n = m := by omega
      subst this
      exact incr_rel_succ n (by omega)

theorem incr_rel_mono_ge4 (n m : Nat) (h4 : 4 ≤ n) (hnm : n ≤ m) (hm : m * 3 < 2 ^ 24) :
    STEREOSEGMATCH_UNIQUE_COST_INCR_REL n ≤ STEREOSEGMATCH_UNIQUE_COST_INCR_REL m := by
  rw [incr_rel_eval_ge4 n h4 (by omega), incr_rel_eval_ge4 m (by omega) hm]
  have hle : divRoundEven (n * 3 * 2 ^ 22) (n + 2) ≤ divRoundEven (m * 3 * 2 ^ 22) (m + 2) := by
    apply divRoundEven_mono (by omega) (by omega)
    have : n * 3 * (m + 2) ≤ m * 3 * (n + 2) := by nlinarith
    nlinarith
  have hc : ((divRoundEven (n * 3 * 2 ^ 22) (n + 2) : Nat) : ℚ)
      ≤ ((divRoundEven (m * 3 * 2 ^ 22) (m + 2) : Nat) : ℚ) := by exact_mod_cast hle
  exact div_le_div_of_nonneg_right hc (by norm_num)

theorem incr_rel_mono (n m : Nat) (hnm : n < m) (hm : m * 3 < 2 ^ 24) :
    STEREOSEGMATCH_UNIQUE_COST_INCR_REL n ≤ STEREOSEGMATCH_UNIQUE_COST_INCR_REL m := by
  rcases Nat.lt_or_ge 5058 m with h | h
  · rcases Nat.lt_or_ge n 4 with h4 | h4
    · exact le_trans (le_of_lt (incr_rel_strict n 4 h4 (by decide)))
        (incr_rel_mono_ge4 4 m (by decide) (by omega) hm)
    · exact incr_rel_mono_ge4 n m h4 (by omega) hm
  · exact le_of_lt (incr_rel_strict n m hnm h)

/-- Claim C16 (as stated, refuted). At the counts 5058 and 5059 the macro gives the same `float`,
`12577939 * 2^-22`: the value at 5058 is not below the value at 5059. -/
theorem unique_cost_incr_rel_ties :
    STEREOSEGMATCH_UNIQUE_COST_INCR_REL 5058 = 12577939 / 4194304
    ∧ STEREOSEGMATCH_UNIQUE_COST_INCR_REL 5059 = 12577939 / 4194304
    ∧ ¬ (STEREOSEGMATCH_UNIQUE_COST_INCR_REL 5058 < STEREOSEGMATCH_UNIQUE_COST_INCR_REL 5059) := by
  have e1 := incr_rel_eval 5058 1 (by decide) (by decide) (by decide) (by decide)
  have e2 := incr_rel_eval 5059 1 (by decide) (by decide) (by decide) (by decide)
  have d1 : divRoundEven (5058 * 3 * 2 ^ (23 - 1)) (5058 + 2) = 12577939 := by decide
  have d2 : divRoundEven (5059 * 3 * 2 ^ (23 - 1)) (5059 + 2) = 12577939 := by decide
  rw [d1] at e1; rw [d2] at e2
  rw [e1, e2]
  norm_num

/-- Claim C16 (amended). For counts `n < m` with `m*3 < 2^24` the value of
`STEREOSEGMATCH_UNIQUE_COST_INCR_REL` at `n` is at most its value at `m`, and strictly below it
when `m <= 5058`; the value at 0 is 0. The quotient before its rounding to `float` is the exact
rational `3n/(n+2)`, which is strictly increasing. -/
theorem unique_cost_incr_rel_monotone (n m : Nat) (hnm : n < m) (hm : m * 3 < 2 ^ 24) :
    STEREOSEGMATCH_UNIQUE_COST_INCR_REL 0 = 0
    ∧ STEREOSEGMATCH_UNIQUE_COST_INCR_REL n ≤ STEREOSEGMATCH_UNIQUE_COST_INCR_REL m
    ∧ (m ≤ 5058 →
        STEREOSEGMATCH_UNIQUE_COST_INCR_REL n < STEREOSEGMATCH_UNIQUE_COST_INCR_REL m)
    ∧ roundBinary32 ((n * 3 : Nat) : ℚ) / roundBinary32 ((n + 2 : Nat) : ℚ)
        = ((3 * n : Nat) : ℚ) / ((n + 2 : Nat) : ℚ)
    ∧ roundBinary32 ((n * 3 : Nat) : ℚ) / roundBinary32 ((n + 2 : Nat) : ℚ)
        < roundBinary32 ((m * 3 : Nat) : ℚ) / roundBinary32 ((m + 2 : Nat) : ℚ) := by
  refine ⟨incr_rel_zero, incr_rel_mono n m hnm hm, incr_rel_strict n m hnm, ?_, ?_⟩
  · rw [roundBinary32_natCast (n * 3) (by omega), roundBinary32_natCast (n + 2) (by omega),
      Nat.mul_comm]
  · rw [roundBinary32_natCast (n * 3) (by omega), roundBinary32_natCast (n + 2) (by omega),
      roundBinary32_natCast (m * 3) hm, roundBinary32_natCast (m + 2) (by omega)]
    rw [div_lt_div_iff₀ (by positivity) (by positivity)]
    have : n * 3 * (m + 2) < m * 3 * (n + 2) := by nlinarith
    exact_mod_cast this

theorem unique_cost_incr_rel_monotone_witness :
    ((5057 : Nat) < 5058 ∧ 5058 * 3 < 2 ^ 24) ∧
    (STEREOSEGMATCH_UNIQUE_COST_INCR_REL 0 = 0
    ∧ STEREOSEGMATCH_UNIQUE_COST_INCR_REL 5057 ≤ STEREOSEGMATCH_UNIQUE_COST_INCR_REL 5058
    ∧ ((5058 : Nat) ≤ 5058 →
        STEREOSEGMATCH_UNIQUE_COST_INCR_REL 5057 < STEREOSEGMATCH_UNIQUE_COST_INCR_REL 5058)
    ∧ roundBinary32 ((5057 * 3 : Nat) : ℚ) / roundBinary32 ((5057 + 2 : Nat) : ℚ)
        = ((3 * 5057 : Nat) : ℚ) / ((5057 + 2 : Nat) : ℚ)
    ∧ roundBinary32 ((5057 * 3 : Nat) : ℚ) / roundBinary32 ((5057 + 2 : Nat) : ℚ)
        < roundBinary32 ((5058 * 3 : Nat) : ℚ) / roundBinary32 ((5058 + 2 : Nat) : ℚ)) :=
  ⟨⟨by decide, by decide⟩, unique_cost_incr_rel_monotone 5057 5058 (by decide) (by decide)⟩

end StereoSegmMatcher

namespace StereoSegmMatcher

open DistanceUtils (IntType)

/-! ## Conversion to the cost type -/

theorem valueType_cast (v : Int) :
    ValueType.cast v
      = (v + 9223372036854775808) % 18446744073709551616 - 9223372036854775808 := by
  simp only [IntType.cast, ValueType, if_true]
  norm_num

theorem valueType_inRange (v : Int) :
    ValueType.inRange v ↔ -9223372036854775808 ≤ v ∧ v ≤ 9223372036854775807 := by
  simp only [IntType.inRange, ValueType, if_true]
  norm_num
  intro _
  omega

theorem valueType_min : numericMin ValueType = -9223372036854775808 := by
  simp only [numericMin, ValueType, if_true]
  norm_num

theorem valueType_max : numericMax ValueType = 9223372036854775807 := by
  simp only [numericMax, ValueType, if_true]
  norm_num

theorem tdiv_num_den_of_nonneg (x : ℚ) (hx : 0 ≤ x) :
    Int.tdiv x.num (x.den : Int) = ⌊x⌋ := by
  rw [Int.tdiv_eq_ediv (Rat.num_nonneg.mpr hx) (Int.ofNat_nonneg _), Rat.floor_def]

theorem tdiv_num_den_of_neg (x : ℚ) (hx : x < 0) :
    Int.tdiv x.num (x.den : Int) = ⌈x⌉ := by
  have h1 : ⌈x⌉ = -⌊-x⌋ := by
    rw [Int.floor_neg, neg_neg]
  have h2 : Int.tdiv x.num (x.den : Int) = -Int.tdiv (-x.num) (x.den : Int) := by
    rw [Int.neg_tdiv, neg_neg]
  have h3 : 0 ≤ -x := by linarith
  rw [h1, h2, ← tdiv_num_den_of_nonneg (-x) h3, Rat.neg_num, Rat.neg_den]

/-- Claim C21. The member `cost_cast` converts to the 64-bit integer cost type by plain
truncation toward zero, not by rounding: an integral value of the `int64_t` range is returned
unchanged; a real `x` of that range is converted to the integer obtained by discarding its
fractional part (`floor(x)` for `x >= 0`, `ceil(x)` for `x < 0`), which is at most `x` for
`x >= 0`; and 0.9 is converted to 0, whereas its rounding is 1. -/
theorem cost_cast_truncates :
    (∀ v : Int, ValueType.inRange v → cost_cast v = v) ∧
    (∀ x : ℚ, ((numericMin ValueType : Int) : ℚ) ≤ x → x ≤ ((numericMax ValueType : Int) : ℚ) →
      ∃ t : Int, cost_castFloat x = some t ∧
        t = (if 0 ≤ x then ⌊x⌋ else ⌈x⌉) ∧
        |(t : ℚ)| ≤ |x| ∧ |x - (t : ℚ)| < 1 ∧ (0 ≤ x → (t : ℚ) ≤ x)) ∧
    (cost_castFloat (9 / 10) = some 0 ∧ round (9 / 10 : ℚ) = 1) := by
  refine ⟨fun v hv => ?_, fun x hmin hmax => ?_, ?_, ?_⟩
  · rw [valueType_inRange] at hv
    unfold cost_cast
    rw [valueType_cast]
    omega
  · rw [valueType_min] at hmin
    rw [valueType_max] at hmax
    by_cases hx : 0 ≤ x
    · have ht := tdiv_num_den_of_nonneg x hx
      have h0 : 0 ≤ ⌊x⌋ := Int.floor_nonneg.mpr hx
      have hle : (⌊x⌋ : ℚ) ≤ x := Int.floor_le x
      have hlt : x < (⌊x⌋ : ℚ) + 1 := Int.lt_floor_add_one x
      have h0q : (0 : ℚ) ≤ (⌊x⌋ : ℚ) := by exact_mod_cast h0
      have hup : ⌊x⌋ ≤ 9223372036854775807 := by
        have : (⌊x⌋ : ℚ) ≤ ((9223372036854775807 : Int) : ℚ) := le_trans hle hmax
        exact_mod_cast this
      refine ⟨⌊x⌋, ?_, by rw [if_pos hx], ?_, ?_, fun _ => hle⟩
      · unfold cost_castFloat
        simp only [ht]
        rw [if_pos ((valueType_inRange _).mpr ⟨by omega, hup⟩)]
      · rw [abs_of_nonneg h0q, abs_of_nonneg hx]
        exact hle
      · rw [abs_lt]
        constructor <;> linarith
    · have hneg : x < 0 := lt_of_not_ge hx
      have ht := tdiv_num_den_of_neg x hneg
      have h0 : ⌈x⌉ ≤ 0 := Int.ceil_le.mpr (by exact_mod_cast le_of_lt hneg)
      have hle : x ≤ (⌈x⌉ : ℚ) := Int.le_ceil x
      have hlt : (⌈x⌉ : ℚ) < x + 1 := Int.ceil_lt_add_one x
      have h0q : (⌈x⌉ : ℚ) ≤ 0 := by exact_mod_cast h0
      have hlow : -9223372036854775808 ≤ ⌈x⌉ := by
        have : ((-9223372036854775808 : Int) : ℚ) ≤ (⌈x⌉ : ℚ) := le_trans hmin hle
        exact_mod_cast this
      refine ⟨⌈x⌉, ?_, by rw [if_neg hx], ?_, ?_, fun h => absurd h hx⟩
      · unfold cost_castFloat
        simp only [ht]
        rw [if_pos ((valueType_inRange _).mpr ⟨hlow, by omega⟩)]
      · rw [abs_of_nonpos h0q, abs_of_neg hneg]
        linarith
      · rw [abs_lt]
        constructor <;> linarith
  · have hn : (9 / 10 : ℚ).num = 9 := by norm_num
    have hd : (9 / 10 : ℚ).den = 10 := by norm_num
    simp only [cost_castFloat, hn, hd]
    decide
  · rw [round_eq, Int.floor_eq_iff]
    norm_num

theorem cost_cast_truncates_witness :
    (ValueType.inRange 42 ∧ ((numericMin ValueType : Int) : ℚ) ≤ -19 / 10 ∧
      (-19 / 10 : ℚ) ≤ ((numericMax ValueType : Int) : ℚ)) ∧
    cost_cast 42 = 42 ∧
    ∃ t : Int, cost_castFloat (-19 / 10) = some t ∧
      t = (if 0 ≤ (-19 / 10 : ℚ) then ⌊(-19 / 10 : ℚ)⌋ else ⌈(-19 / 10 : ℚ)⌉) ∧
      |(t : ℚ)| ≤ |(-19 / 10 : ℚ)| ∧ |(-19 / 10 : ℚ) - (t : ℚ)| < 1 ∧
      (0 ≤ (-19 / 10 : ℚ) → (t : ℚ) ≤ -19 / 10) :=
  have hmin : ((numericMin ValueType : Int) : ℚ) ≤ -19 / 10 := by
    rw [valueType_min]
    norm_num
  have hmax : (-19 / 10 : ℚ) ≤ ((numericMax ValueType : Int) : ℚ) := by
    rw [valueType_max]
    norm_num
  ⟨⟨by decide, hmin, hmax⟩, cost_cast_truncates.1 42 (by decide),
    cost_cast_truncates.2.1 (-19 / 10) hmin hmax⟩

end StereoSegmMatcher
